import Mathlib

/-!
# WENOEXT: geometry-to-coefficient pipeline

A shallow embedding of the parts of `libWENOEXT` that the specification's
testable properties talk about.  The C++ type `scalar` is modelled by the exact rationals
`ℚ`: every decimal literal of the source is read as the rational number it
denotes, and `+`, `*`, `/` are exact.

The quadrature table `gaussCoeff` is transcribed from `geometryWENO.H`, the
functions `readHeader`, `readFaceList` and `procBounds` from
`reconstructRegionalMesh.C`, and the inline members of `WENOUpwindFit` from
`WENOUpwindFit.H`.  The headers only declare `initIntegrals`, `JacobiInverse`,
`transformPoint`, `jacobi`, `smoothIndIntegrals`, `getB`, `Fac`, `calcWeight`
and `sumFlux`; their bodies, the constructor of `WENOCoeff` and the
least-squares fit are modelled from the specification and each such
definition says so.  Library operations of OpenFOAM are parameters or small
models of their documented behaviour.  The lifetime of an object enters in one
place, the constructor of `WENOUpwindFit` from a mesh, where the free store is
followed explicitly.
-/

namespace WENOEXT

open Matrix

/-! ## `geometryWENO::gaussCoeff` (geometryWENO.H, lines 181-204) -/

/-- Points and weights of the 7th-order Gauss quadrature of the standard
triangle, `gaussCoeff[13][3]`.  Each row is `(x, y, weight)`; the rows appear
in the order of the source (rows 0 to 12). -/
def gaussCoeff : List (ℚ × ℚ × ℚ) :=
  [ (0.33333333333333, 0.33333333333333, -0.14957004446768),  -- 0
    (0.26034596607904, 0.26034596607904,  0.17561525743321),  -- 1
    (0.26034596607904, 0.47930806784192,  0.17561525743321),  -- 2
    (0.47930806784192, 0.26034596607904,  0.17561525743321),  -- 3
    (0.06513010290222, 0.06513010290222,  0.05334723560884),  -- 4
    (0.06513010290222, 0.86973979419557,  0.05334723560884),  -- 5
    (0.86973979419557, 0.06513010290222,  0.05334723560884),  -- 6
    (0.31286549600487, 0.63844418856981,  0.07711376089026),  -- 7
    (0.63844418856981, 0.04869031542532,  0.07711376089026),  -- 8
    (0.04869031542532, 0.31286549600487,  0.07711376089026),  -- 9
    (0.63844418856981, 0.31286549600487,  0.07711376089026),  -- 10
    (0.31286549600487, 0.04869031542532,  0.07711376089026),  -- 11
    (0.04869031542532, 0.63844418856981,  0.07711376089026) ] -- 12

/-- The tabulated rule applied to the monomial `x^n y^m`: the sum over the
rows of `gaussCoeff` of `weight * x^n * y^m`. -/
def gaussRule (n m : ℕ) : ℚ :=
  (gaussCoeff.map fun r => r.2.2 * r.1 ^ n * r.2.1 ^ m).sum

/-- Sum of the third entries (the weights) of the rows of `gaussCoeff`. -/
def gaussWeightSum : ℚ :=
  (gaussCoeff.map fun r => r.2.2).sum

/-- Exact integral of `x^n y^m` over the unit reference triangle with
vertices `(0,0)`, `(1,0)`, `(0,1)`, as the specification states it:
`n! m! / (n + m + 2)!`. -/
def triangleMonomialIntegral (n m : ℕ) : ℚ :=
  ((n.factorial * m.factorial : ℕ) : ℚ) / ((n + m + 2).factorial : ℕ)

/-- Area of the unit reference triangle. -/
def unitTriangleArea : ℚ := 1 / 2

/-! ## Reference frame (geometryWENO.H, lines 105-117 and 165-179)

The header declares `JacobiInverse`, `transformPoint` and `jacobi` without
bodies. -/

/-- A point or vector of three scalars. -/
abbrev point := Fin 3 → ℚ

/-- The type `scalarSquareMatrix` of the header, used at size 3 for Jacobians. -/
abbrev scalarSquareMatrix := Matrix (Fin 3) (Fin 3) ℚ

/-- Determinant of a 3x3 matrix by cofactor expansion along the first row. -/
def det3 (J : scalarSquareMatrix) : ℚ :=
  J 0 0 * (J 1 1 * J 2 2 - J 1 2 * J 2 1)
    - J 0 1 * (J 1 0 * J 2 2 - J 1 2 * J 2 0)
    + J 0 2 * (J 1 0 * J 2 1 - J 1 1 * J 2 0)

/-- Modelled from the spec: the body of `geometryWENO::JacobiInverse` is missing.
The specification (4.1) says that the inverse is computed by the explicit
closed-form cofactor formula for 3x3 matrices: entry `(i, j)` is the cofactor
of entry `(j, i)` divided by the determinant. -/
def JacobiInverse (J : scalarSquareMatrix) : scalarSquareMatrix :=
  !![(J 1 1 * J 2 2 - J 1 2 * J 2 1) / det3 J,
     (J 0 2 * J 2 1 - J 0 1 * J 2 2) / det3 J,
     (J 0 1 * J 1 2 - J 0 2 * J 1 1) / det3 J;
     (J 1 2 * J 2 0 - J 1 0 * J 2 2) / det3 J,
     (J 0 0 * J 2 2 - J 0 2 * J 2 0) / det3 J,
     (J 0 2 * J 1 0 - J 0 0 * J 1 2) / det3 J;
     (J 1 0 * J 2 1 - J 1 1 * J 2 0) / det3 J,
     (J 0 1 * J 2 0 - J 0 0 * J 2 1) / det3 J,
     (J 0 0 * J 1 1 - J 0 1 * J 1 0) / det3 J]

/-- Modelled from the spec: the body of `geometryWENO::transformPoint` is
missing.  The specification (4.1) gives `xi = Jinv * (x - x0)`. -/
def transformPoint (Jinv : scalarSquareMatrix) (xP x0 : point) : point :=
  Jinv *ᵥ (xP - x0)

/-- The map from reference space back to physical space, `x = J * xi + x0`,
the inverse direction of `transformPoint` named in the round-trip property. -/
def transformBack (J : scalarSquareMatrix) (xi x0 : point) : point :=
  J *ᵥ xi + x0

/-- Modelled from the spec: the body of `geometryWENO::jacobi` is missing.  The
specification (4.1) builds `J` from four points with the edge vectors
`x1 - x0`, `x2 - x0`, `x3 - x0` as columns. -/
def jacobi (x0 x1 x2 x3 : point) : scalarSquareMatrix :=
  !![x1 0 - x0 0, x2 0 - x0 0, x3 0 - x0 0;
     x1 1 - x0 1, x2 1 - x0 1, x3 1 - x0 1;
     x1 2 - x0 2, x2 2 - x0 2, x3 2 - x0 2]

/-- Errors of the geometric stage (specification, section 7). -/
inductive GeometryError where
  | degenerateGeometry
  deriving DecidableEq, Repr

/-- The reference frame of the data model: Jacobian, inverse Jacobian,
reference point and determinant. -/
structure ReferenceFrame where
  J : scalarSquareMatrix
  Jinv : scalarSquareMatrix
  x0 : point
  detJ : ℚ

/-- Modelled from the spec: the code that builds a cell's reference frame is
missing.  The specification (4.1) computes `J` from the four points, `Jinv` by
the cofactor formula and `detJ = det J`, and fails with a degenerate-geometry
error if `|detJ|` is below the degeneracy epsilon `eps`. -/
def referenceFrame (eps : ℚ) (x0 x1 x2 x3 : point) : Except GeometryError ReferenceFrame :=
  if |det3 (jacobi x0 x1 x2 x3)| < eps then
    .error .degenerateGeometry
  else
    .ok ⟨jacobi x0 x1 x2 x3, JacobiInverse (jacobi x0 x1 x2 x3), x0,
      det3 (jacobi x0 x1 x2 x3)⟩

/-- A sample non-degenerate Jacobian. -/
def sampleJ : scalarSquareMatrix := !![2, 0, 0; 0, 1, 0; 1, 0, 1]

/-! ## Nonlinear weight blender (WENOSensor.H, lines 85-92)

`WENOSensor::calcWeight` is declared without a body. -/

/-- One candidate stencil of an owner cell: its ideal linear weight `d`, its
smoothness value `sigma` and its raw coefficients, one per basis function. -/
structure Candidate (n : ℕ) where
  d : ℚ
  sigma : ℚ
  coeffs : Fin n → ℚ

/-- Modelled from the spec: raw weight `omega_k = d_k / (eps + sigma_k)^p`
(specification 4.6); the body of `calcWeight` is missing. -/
def rawWeight {n : ℕ} (eps : ℚ) (p : ℤ) (c : Candidate n) : ℚ :=
  c.d / (eps + c.sigma) ^ p

/-- Sum of the raw weights of all candidates. -/
def rawWeightSum {n : ℕ} (eps : ℚ) (p : ℤ) (cs : List (Candidate n)) : ℚ :=
  (cs.map (rawWeight eps p)).sum

/-- Modelled from the spec: normalised weight `w_k = omega_k / sum_j omega_j`
(specification 4.6); the body of `calcWeight` is missing. -/
def nonlinearWeight {n : ℕ} (eps : ℚ) (p : ℤ) (cs : List (Candidate n))
    (c : Candidate n) : ℚ :=
  rawWeight eps p c / rawWeightSum eps p cs

/-- The normalised weights of all candidates, in stencil order. -/
def nonlinearWeights {n : ℕ} (eps : ℚ) (p : ℤ) (cs : List (Candidate n)) : List ℚ :=
  cs.map (nonlinearWeight eps p cs)

/-- Modelled from the spec: the body of `WENOSensor::calcWeight` is missing.
The blended coefficient vector is `sum_k w_k * c_k`, per basis function
(specification 4.6). -/
def calcWeight {n : ℕ} (eps : ℚ) (p : ℤ) (cs : List (Candidate n)) : Fin n → ℚ :=
  fun i => (cs.map fun c => nonlinearWeight eps p cs c * c.coeffs i).sum

/-- Sum of the ideal linear weights of all candidates. -/
def idealWeightSum {n : ℕ} (cs : List (Candidate n)) : ℚ :=
  (cs.map fun c => c.d).sum

/-- A central stencil with ideal weight 1000 on smooth data. -/
def centralCandidate : Candidate 1 := ⟨1000, 0, ![2]⟩

/-- A sector stencil with ideal weight 1 on smooth data. -/
def sectorCandidate : Candidate 1 := ⟨1, 0, ![5]⟩

/-- A smooth candidate with ideal weight 3/4. -/
def candidateA : Candidate 1 := ⟨3 / 4, 0, ![2]⟩

/-- A smooth candidate with ideal weight 1/4. -/
def candidateB : Candidate 1 := ⟨1 / 4, 0, ![6]⟩

/-- A non-smooth candidate. -/
def candidateC : Candidate 1 := ⟨1, 7, ![6]⟩

/-! ## Moment tables and basis functions (geometryWENO.H, lines 60-63) -/

/-- The type `volIntegralType` of the header, a three-dimensional table of
scalars: entry `(n, m, l)` holds the integral of `x^n y^m z^l` over a cell, in
the reference frame of the owner cell. -/
abbrev volIntegralType := ℕ → ℕ → ℕ → ℚ

/-- Modelled from the spec: the enumeration of the basis functions is missing
from the sources.  The exponent triples `(n, m, l)` of the non-constant
basis monomials of order `r`, that is `1 ≤ n + m + l ≤ r`, ordered by total
degree and then lexicographically with `x` first (specification, section 3). -/
def basisExponents (r : ℕ) : List (ℕ × ℕ × ℕ) :=
  (List.range r).flatMap fun d =>
    (List.range (d + 2)).flatMap fun i =>
      (List.range (i + 1)).map fun j => (d + 1 - i, i - j, j)

/-- Modelled from the spec: the loops over the basis functions are missing
from the sources.  The declarations of `getB` and `sumFlux` pass a list `dim`
of three labels, one per direction of the frame: the highest exponent the
basis uses in that direction, which is the order in a direction the mesh
resolves and 0 in a direction it does not.  The basis functions of order `r`
are the monomials of `basisExponents r` within these bounds. -/
def activeExponents (dim : ℕ × ℕ × ℕ) (r : ℕ) : List (ℕ × ℕ × ℕ) :=
  (basisExponents r).filter fun e => e.1 ≤ dim.1 ∧ e.2.1 ≤ dim.2.1 ∧ e.2.2 ≤ dim.2.2

/-- Normalised moment of a basis function over a cell: the cell's volume
integral of the monomial divided by the cell's volume, which is entry
`(0, 0, 0)` of its table. -/
def normalizedMoment (T : volIntegralType) (e : ℕ × ℕ × ℕ) : ℚ :=
  T e.1 e.2.1 e.2.2 / T 0 0 0

/-- Moment table, up to the first moments, of a cell of unit volume whose
centroid is `(x, y, z)`. -/
def cellAt (x y z : ℚ) : volIntegralType :=
  fun n m l => x ^ n * y ^ m * z ^ l

/-! ## Polynomial fit solver (specification 4.4)

The least-squares fit has no declaration in the headers at hand; it is
modelled from the specification. -/

/-- Errors of the fit stage (specification, section 7). -/
inductive FitError where
  | rankDeficientStencil
  deriving DecidableEq, Repr

/-- Modelled from the spec: the fit matrix `A` (specification 4.4), one row per
stencil member and one column per non-constant basis function: the member's
normalised moment minus the owner's normalised moment. -/
def fitMatrix (dim : ℕ × ℕ × ℕ) (r : ℕ) {m : ℕ} (owner : volIntegralType)
    (members : Fin m → volIntegralType) :
    Matrix (Fin m) (Fin (activeExponents dim r).length) ℚ :=
  fun i k => normalizedMoment (members i) ((activeExponents dim r).get k)
    - normalizedMoment owner ((activeExponents dim r).get k)

/-- Modelled from the spec: the right-hand side `b` (specification 4.4): per
member, the difference of its field sample from the owner's sample. -/
def fitRhs {m : ℕ} (ownerSample : ℚ) (samples : Fin m → ℚ) : Fin m → ℚ :=
  fun i => samples i - ownerSample

/-- Centroid of a cell in the frame of the owner: its three normalised first
moments. -/
def centroid (T : volIntegralType) : point :=
  ![normalizedMoment T (1, 0, 0), normalizedMoment T (0, 1, 0), normalizedMoment T (0, 0, 1)]

/-- Square of the geometric separation of two cells, the distance between
their centroids. -/
def separationSq (T U : volIntegralType) : ℚ :=
  ∑ i, (centroid T i - centroid U i) ^ 2

/-- Modelled from the spec: a stencil contains a repeated or coincident cell
when two of its members, or a member and the owner, have zero geometric
separation (specification, section 8). -/
def hasCoincidentCell {m : ℕ} (owner : volIntegralType) (members : Fin m → volIntegralType) :
    Bool :=
  decide ((∃ i j, i ≠ j ∧ separationSq (members i) (members j) = 0)
    ∨ ∃ i, separationSq (members i) owner = 0)

/-- Modelled from the spec: the stencils for which the fit raises
`RankDeficientStencil` (specification 4.4, 7 and 8): a stencil with a repeated
or coincident cell, and a stencil whose normal equations are singular, as with
fewer members than basis functions, or near-singular, the absolute value of
their determinant being below the degeneracy epsilon. -/
def rankDeficient (eps : ℚ) (dim : ℕ × ℕ × ℕ) (r : ℕ) {m : ℕ} (owner : volIntegralType)
    (members : Fin m → volIntegralType) : Bool :=
  hasCoincidentCell owner members
    || decide (((fitMatrix dim r owner members)ᵀ * fitMatrix dim r owner members).det = 0
      ∨ |((fitMatrix dim r owner members)ᵀ * fitMatrix dim r owner members).det| < eps)

/-- Modelled from the spec: the solution of `A c = b` (specification 4.4): the
system is solved directly when the stencil size equals the number of basis
functions, and by least squares, through the normal equations, when the
stencil is larger. -/
def leastSquaresSolve {m n : ℕ} (A : Matrix (Fin m) (Fin n) ℚ) (b : Fin m → ℚ) : Fin n → ℚ :=
  if h : m = n then
    ((A.submatrix (Fin.cast h.symm) id).det)⁻¹ •
      ((A.submatrix (Fin.cast h.symm) id).adjugate *ᵥ fun i => b (Fin.cast h.symm i))
  else
    ((Aᵀ * A).det)⁻¹ • ((Aᵀ * A).adjugate *ᵥ (Aᵀ *ᵥ b))

/-- Modelled from the spec: the polynomial fit of one stencil
(specification 4.4): a rank-deficient stencil raises `RankDeficientStencil`;
otherwise `A` and `b` are assembled from the cached moment tables and the field
samples, and the system is solved. -/
def polyFit (eps : ℚ) (dim : ℕ × ℕ × ℕ) (r : ℕ) {m : ℕ} (owner : volIntegralType)
    (members : Fin m → volIntegralType) (ownerSample : ℚ) (samples : Fin m → ℚ) :
    Except FitError (Fin (activeExponents dim r).length → ℚ) :=
  if rankDeficient eps dim r owner members then
    .error .rankDeficientStencil
  else
    .ok (leastSquaresSolve (fitMatrix dim r owner members) (fitRhs ownerSample samples))

/-- A stencil of four members in which the cell at distance 1 along `z`
appears twice. -/
def repeatedCellStencil : Fin 4 → volIntegralType :=
  fun i => cellAt (if i = 0 then 1 else 0) (if i = 1 then 1 else 0)
    (if i = 2 ∨ i = 3 then 1 else 0)

/-! ## Rules over the quadrature table -/

/-- The tabulated rule applied to an integrand `f`: the sum over the rows of
`gaussCoeff` of `weight * f x y`. -/
def gaussApply (f : ℚ → ℚ → ℚ) : ℚ :=
  (gaussCoeff.map fun r => r.2.2 * f r.1 r.2.1).sum

/-- A non-negative integrand that is 1 at the first node of the table and 0
elsewhere. -/
def centroidSpike (x y : ℚ) : ℚ :=
  if x = 0.33333333333333 ∧ y = 0.33333333333333 then 1 else 0

/-! ## Moment integral engine (geometryWENO.H, lines 79-90)

The header declares `initIntegrals` without a body and includes
`polyMeshTetDecomposition.H`. -/

/-- Modelled from the spec: the body of `geometryWENO::Fac` is missing; the
header documents it as the factorial of its argument. -/
def Fac (x : ℕ) : ℚ := (x.factorial : ℚ)

/-- A polynomial in the three coordinates of the reference tetrahedron, as a
list of terms `(coefficient, i, j, k)` for `coefficient * u^i * v^j * w^k`. -/
abbrev Poly3 := List (ℚ × ℕ × ℕ × ℕ)

/-- Product of two polynomials, term by term. -/
def Poly3.mul (p q : Poly3) : Poly3 :=
  p.flatMap fun s => q.map fun t =>
    (s.1 * t.1, s.2.1 + t.2.1, s.2.2.1 + t.2.2.1, s.2.2.2 + t.2.2.2)

/-- Power of a polynomial by repeated multiplication. -/
def Poly3.pow (p : Poly3) : ℕ → Poly3
  | 0 => [(1, 0, 0, 0)]
  | k + 1 => Poly3.mul p (Poly3.pow p k)

/-- Value of a polynomial at the point `(u, v, w)`, the coefficients being read
in the field of the coordinates. -/
def Poly3.eval {K : Type} [DivisionRing K] (p : Poly3) (u v w : K) : K :=
  (p.map fun t => (t.1 : K) * u ^ t.2.1 * v ^ t.2.2.1 * w ^ t.2.2.2).sum

/-- Exact integral of a polynomial over the reference tetrahedron with
vertices `0`, `e1`, `e2`, `e3`: the monomial `u^i v^j w^k` integrates to
`i! j! k! / (i + j + k + 3)!`. -/
def refTetIntegral (p : Poly3) : ℚ :=
  (p.map fun t => t.1 * (Fac t.2.1 * Fac t.2.2.1 * Fac t.2.2.2
    / Fac (t.2.1 + t.2.2.1 + t.2.2.2 + 3))).sum

/-- A tetrahedron given by its four vertices. -/
structure Tet where
  p0 : point
  p1 : point
  p2 : point
  p3 : point

/-- Coordinate `i` of a point of the tetrahedron as a polynomial in the
coordinates of the reference tetrahedron (the affine map `p0 + J u`). -/
def Tet.coord (t : Tet) (i : Fin 3) : Poly3 :=
  [(t.p0 i, 0, 0, 0), (t.p1 i - t.p0 i, 1, 0, 0), (t.p2 i - t.p0 i, 0, 1, 0),
   (t.p3 i - t.p0 i, 0, 0, 1)]

/-- Modelled from the spec: the body of `geometryWENO::initIntegrals` is
missing.  The exact integral of `x^n y^m z^l` over a tetrahedron by the
analytic formula of specification 4.2: the monomial is pulled back to the
reference tetrahedron and integrated term by term. -/
def tetIntegral (t : Tet) (n m l : ℕ) : ℚ :=
  |det3 (jacobi t.p0 t.p1 t.p2 t.p3)|
    * refTetIntegral (Poly3.mul (Poly3.pow (t.coord 0) n)
        (Poly3.mul (Poly3.pow (t.coord 1) m) (Poly3.pow (t.coord 2) l)))

/-- A tetrahedron expressed in the reference frame `(Jinv, x0)`. -/
def Tet.transform (Jinv : scalarSquareMatrix) (x0 : point) (t : Tet) : Tet :=
  ⟨transformPoint Jinv t.p0 x0, transformPoint Jinv t.p1 x0, transformPoint Jinv t.p2 x0,
   transformPoint Jinv t.p3 x0⟩

/-- Integral of `x^n y^m z^l` over a cell given by its decomposition into
tetrahedra, in the reference frame `(Jinv, x0)`: the integrals accumulate
additively over the tetrahedra. -/
def cellIntegral (cellTets : List Tet) (Jinv : scalarSquareMatrix) (x0 : point)
    (n m l : ℕ) : ℚ :=
  (cellTets.map fun t => tetIntegral (t.transform Jinv x0) n m l).sum

/-- Modelled from the spec: the body of `geometryWENO::initIntegrals` is
missing.  The contract `computeVolumeIntegrals(cellGeometry, frame,
maxDegree)` of specification 4.2: the table of the integrals of the monomials
of total degree at most `maxDegree` over the cell, in the given frame. -/
def computeVolumeIntegrals (cellTets : List Tet) (Jinv : scalarSquareMatrix) (x0 : point)
    (maxDegree : ℕ) : volIntegralType :=
  fun n m l => if n + m + l ≤ maxDegree then cellIntegral cellTets Jinv x0 n m l else 0

/-- The unit vector along axis `a`. -/
def unitVector (a : Fin 3) : point := fun i => if i = a then 1 else 0

/-- The tetrahedron of the unit cube whose edge path runs from the origin
along axis `a`, then along axis `b`, then along the remaining axis to the
corner `(1, 1, 1)`. -/
def cubePathTet (a b : Fin 3) : Tet :=
  ⟨0, unitVector a, unitVector a + unitVector b, fun _ => 1⟩

/-- The unit cube, decomposed into the six tetrahedra around the diagonal from
the origin to the corner `(1, 1, 1)`, one per order of the three axes. -/
def unitCubeTets : List Tet :=
  [cubePathTet 0 1, cubePathTet 0 2, cubePathTet 1 0, cubePathTet 1 2, cubePathTet 2 0,
   cubePathTet 2 1]

/-- Inverse Jacobian of the frame spanned by the unit vectors at the origin,
in which the unit cube is its own reference cell. -/
def unitFrameInverse : scalarSquareMatrix :=
  JacobiInverse (jacobi ![0, 0, 0] ![1, 0, 0] ![0, 1, 0] ![0, 0, 1])

/-! ## Smoothness indicator matrix (geometryWENO.H, lines 120-143)

`smoothIndIntegrals` and `getB` are declared without bodies. -/

/-- Coefficient of the partial derivative of order `a` of the monomial with
exponents `e`: the derivative is `derivCoeff e a` times the monomial with
exponents `e - a` when `a ≤ e` componentwise, and zero otherwise. -/
def derivCoeff (e a : ℕ × ℕ × ℕ) : ℚ :=
  if a.1 ≤ e.1 ∧ a.2.1 ≤ e.2.1 ∧ a.2.2 ≤ e.2.2 then
    Fac e.1 / Fac (e.1 - a.1) * (Fac e.2.1 / Fac (e.2.1 - a.2.1))
      * (Fac e.2.2 / Fac (e.2.2 - a.2.2))
  else 0

/-- The partial derivatives that enter the smoothness indicator: all
multi-indices of order at least 1 and at most `r` (specification 4.5). -/
def derivativeOrders (r : ℕ) : Finset (ℕ × ℕ × ℕ) :=
  (Finset.range (r + 1) ×ˢ Finset.range (r + 1) ×ˢ Finset.range (r + 1)).filter
    fun a => 1 ≤ a.1 + a.2.1 + a.2.2 ∧ a.1 + a.2.1 + a.2.2 ≤ r

/-- Modelled from the spec: the body of `geometryWENO::smoothIndIntegrals` is
missing.  The volume integrals for the smoothness indicator matrix of the cell
`cellI` of the mesh, given here by its decomposition into tetrahedra: the table
of the integrals of the monomials over the cell in the frame of `JacobianI` and
`refPointI`, up to the total degree `2 * polOrder` that covers the products of
derivatives (specification 3 and 4.2). -/
def smoothIndIntegrals (cellTets : List Tet) (polOrder : ℕ) (JacobianI : scalarSquareMatrix)
    (refPointI : point) : volIntegralType :=
  computeVolumeIntegrals cellTets JacobianI refPointI (2 * polOrder)

/-- Modelled from the spec: one entry of the smoothness indicator matrix
(specification 4.5): the sum over the derivative orders `a` of the volume
integral of the product of the `a`-th derivatives of the two basis monomials
`e1` and `e2`, weighted by the cell-size normalisation factor `scale a`.  The
integrals are read from the table `I` that `smoothIndIntegrals` returns. -/
def smoothEntry (r : ℕ) (scale : ℕ × ℕ × ℕ → ℚ) (I : volIntegralType)
    (e1 e2 : ℕ × ℕ × ℕ) : ℚ :=
  ∑ a ∈ derivativeOrders r,
    scale a * (derivCoeff e1 a * derivCoeff e2 a
      * I (e1.1 + e2.1 - 2 * a.1) (e1.2.1 + e2.2.1 - 2 * a.2.1) (e1.2.2 + e2.2.2 - 2 * a.2.2))

/-- Modelled from the spec: the body of `geometryWENO::getB` is missing.  The
smoothness indicator matrix of the cell `cellI` of the mesh, given here by its
decomposition into tetrahedra, for the order `polOrder` in the frame of `JInvI`
and `refPointI` (specification 4.5).  It is indexed by the non-constant basis
functions in the directions of `dim`, whose number is the argument `nDvt` of
the header, and its entries are built from the table that `smoothIndIntegrals`
computes for the cell.  The cell-size normalisation factor `scale`, which the
specification leaves to the published scheme, is a parameter. -/
def getB (cellTets : List Tet) (polOrder : ℕ) (scale : ℕ × ℕ × ℕ → ℚ)
    (JInvI : scalarSquareMatrix) (refPointI : point) (dim : ℕ × ℕ × ℕ) :
    Matrix (Fin (activeExponents dim polOrder).length)
      (Fin (activeExponents dim polOrder).length) ℚ :=
  fun i j => smoothEntry polOrder scale (smoothIndIntegrals cellTets polOrder JInvI refPointI)
    ((activeExponents dim polOrder).get i) ((activeExponents dim polOrder).get j)

/-- The smoothness value of a coefficient vector: the quadratic form
`c^T B c` (specification 4.5). -/
def smoothnessValue {k : ℕ} (B : Matrix (Fin k) (Fin k) ℚ) (c : Fin k → ℚ) : ℚ :=
  c ⬝ᵥ (B *ᵥ c)

/-! ## WENOUpwindFit (WENOUpwindFit.H) and WENOSensor (WENOSensor.H) -/

/-- A `surfaceScalarField`: one scalar per face, faces numbered by labels. -/
abbrev surfaceScalarField := ℕ → ℚ

/-- A cell-centred scalar field: one scalar per cell. -/
abbrev volScalarField := ℕ → ℚ

/-- Library function `pos` of OpenFOAM, which is not part of the repository:
1 for a non-negative argument and 0 for a negative one. -/
def pos (s : ℚ) : ℚ := if 0 ≤ s then 1 else 0

/-- Errors of the setup stage (specification, section 7). -/
inductive SetupError where
  | invalidConfiguration
  deriving DecidableEq, Repr

/-- The coefficient object a scheme holds; only its polynomial order matters
here. -/
structure WENOCoeff where
  polOrder : ℤ

/-- Modelled from the spec: the constructor of `WENOCoeff` is missing.  A
polynomial order below 1 is an invalid configuration and is fatal at setup
(specification, section 7). -/
def WENOCoeff.construct (polOrder : ℤ) : Except SetupError WENOCoeff :=
  if polOrder < 1 then .error .invalidConfiguration else .ok ⟨polOrder⟩

/-- Modelled from the spec: the body of the constructor
`WENOSensor(mesh, polOrder)` is missing; `WENOSensor` derives from `WENOCoeff`,
whose constructor runs first with the same order. -/
def WENOSensor.construct (polOrder : ℤ) : Except SetupError WENOCoeff :=
  WENOCoeff.construct polOrder

/-- The private data of `WENOUpwindFit`: the face flux, which is the field that
the reference member `faceFlux_` is bound to, the polynomial order and the
limiting factor, both stored as scalars, and the coefficient object. -/
structure WENOUpwindFit where
  faceFlux_ : surfaceScalarField
  polOrder_ : ℚ
  limFac_ : ℚ
  WENOCoeff_ : WENOCoeff

/-- Conversion of a scalar to a label as C++ does it, by truncation towards
zero; the scalar `polOrder_` is passed to a constructor that takes a label. -/
def labelOfScalar (s : ℚ) : ℤ := if 0 ≤ s then ⌊s⌋ else ⌈s⌉

/-- The field that `zeroFlux()` returns: 0 on every face. -/
def zeroFlux : surfaceScalarField := fun _ => 0

/-- The free store as far as a scheme uses it: the surface fields created with
`new`, by address; a field that was deleted leaves `none`. -/
abbrev FieldStore := List (Option surfaceScalarField)

/-- The expression `new surfaceScalarField(...)`: the field is placed at a
fresh address, which is returned with the store. -/
def FieldStore.create (store : FieldStore) (field : surfaceScalarField) : ℕ × FieldStore :=
  (store.length, store ++ [some field])

/-- The expression `delete` on the field at an address. -/
def FieldStore.delete (store : FieldStore) (addr : ℕ) : FieldStore :=
  store.set addr none

/-- Reading through a reference bound to the field at an address: the field
while it exists, and nothing once it was deleted, where C++ leaves the
behaviour undefined. -/
def FieldStore.deref (store : FieldStore) (addr : ℕ) : Option surfaceScalarField :=
  store.getD addr none

/-- Library class `tmp<surfaceScalarField>` of OpenFOAM, which is not part of
the repository: a handle that owns the field at the address `ptr`. -/
structure tmp where
  ptr : ℕ

/-- The conversion `operator const T&()` of a `tmp`: a reference to the field
it owns, held as the address of that field. -/
def tmp.cref (t : tmp) : ℕ := t.ptr

/-- The destructor of a `tmp` that is the only owner of its field: the field
is deleted. -/
def tmp.destroy (t : tmp) (store : FieldStore) : FieldStore :=
  store.delete t.ptr

/-- The member function `zeroFlux()`, lines 130-147: a `tmp` that owns a new
field with the value 0 on every face. -/
def WENOUpwindFit.zeroFlux (store : FieldStore) : tmp × FieldStore :=
  (⟨(store.create WENOEXT.zeroFlux).1⟩, (store.create WENOEXT.zeroFlux).2)

/-- A `WENOUpwindFit` object as a constructor leaves it in the free store: the
member `faceFlux_` is a const reference and is held as the address of the field
it was bound to; the other members are values. -/
structure WENOUpwindFitObject where
  faceFlux_ : ℕ
  polOrder_ : ℚ
  limFac_ : ℚ
  WENOCoeff_ : WENOCoeff

/-- The scheme that an object stands for when its reference `faceFlux_` is
read in a store: nothing when the field it was bound to no longer exists. -/
def WENOUpwindFitObject.scheme (o : WENOUpwindFitObject) (store : FieldStore) :
    Option WENOUpwindFit :=
  (store.deref o.faceFlux_).map fun flux => ⟨flux, o.polOrder_, o.limFac_, o.WENOCoeff_⟩

/-- The constructor `WENOUpwindFit(mesh, polOrder)`, lines 155-168.  The
members are initialised in order.  First `faceFlux_(zeroFlux())`: the call
creates a field in the free store, which is followed from here on, the
reference is bound to that field through the conversion of the temporary
`tmp`, and at the end of the initialiser the temporary is destroyed.  Then
`polOrder_(polOrder)`, `limFac_(0)` and `WENOCoeff_(mesh, polOrder_)`.  The
result is the object and the store it leaves. -/
def WENOUpwindFit.fromMesh (polOrder : ℤ) :
    Except SetupError (WENOUpwindFitObject × FieldStore) :=
  (WENOCoeff.construct (labelOfScalar (polOrder : ℚ))).map fun coeff =>
    (⟨(WENOUpwindFit.zeroFlux []).1.cref, (polOrder : ℚ), 0, coeff⟩,
      (WENOUpwindFit.zeroFlux []).1.destroy (WENOUpwindFit.zeroFlux []).2)

/-- The constructors of `WENOUpwindFit` from an `Istream`: the face flux is
looked up or passed in, `polOrder_` and `limFac_` are the two scalars read
from the stream, then `WENOCoeff_(mesh, polOrder_)`. -/
def WENOUpwindFit.fromIstream (faceFlux : surfaceScalarField) (polOrder limFac : ℚ) :
    Except SetupError WENOUpwindFit :=
  (WENOCoeff.construct (labelOfScalar polOrder)).map
    fun coeff => ⟨faceFlux, polOrder, limFac, coeff⟩

/-- The member function `weights(vf)`: `return pos(faceFlux_)`, face by
face. -/
def WENOUpwindFit.weights (s : WENOUpwindFit) (_vf : volScalarField) : surfaceScalarField :=
  fun faceI => pos (s.faceFlux_ faceI)

/-- The member function `corrected()`: `return true`. -/
def WENOUpwindFit.corrected (_s : WENOUpwindFit) : Bool := true

/-- The member function `weights(vf)` called on an object in a store:
`pos(faceFlux_)` reads the field behind the reference, so there is no defined
result when that field no longer exists. -/
def WENOUpwindFitObject.weights (o : WENOUpwindFitObject) (store : FieldStore)
    (vf : volScalarField) : Option surfaceScalarField :=
  (o.scheme store).map fun s => s.weights vf

/-- The member function `corrected()` called on an object: `return true`. -/
def WENOUpwindFitObject.corrected (_o : WENOUpwindFitObject) : Bool := true

/-- The OpenFOAM type `label`, a signed integer. -/
abbrev label := ℤ

/-- A face: the list of the labels of its points. -/
abbrev face := List label

/-- Checked element access `xs[i]`: nothing when the index is out of bounds. -/
def listAt {α : Type} (xs : List α) (i : label) : Option α :=
  if 0 ≤ i then xs[i.toNat]? else none

/-- The inner loop of `readFaceList`, lines 383-386: `size` times
`subList[j] = elems[index++]`. -/
def fillFace (elems : List label) : ℕ → label → Option face
  | 0, _ => some []
  | size + 1, index =>
    match listAt elems index, fillFace elems size (index + 1) with
    | some e, some rest => some (e :: rest)
    | _, _ => none

/-- One pass of the outer loop of `readFaceList`, lines 378-386:
`index = start[i]`, `subList.setSize(start[i+1] - index)`, then the inner
loop.  A negative size is refused. -/
def readFace (start elems : List label) (i : ℕ) : Option face :=
  match listAt start (i : ℤ), listAt start ((i : ℤ) + 1) with
  | some index, some next =>
    if next - index < 0 then none else fillFace elems (next - index).toNat index
  | _, _ => none

/-- The outer loop of `readFaceList`, `forAll(L, i)`: `k` passes starting at
face `i`. -/
def readFaces (start elems : List label) : ℕ → ℕ → Option (List face)
  | 0, _ => some []
  | k + 1, i =>
    match readFace start elems i, readFaces start elems k (i + 1) with
    | some f, some rest => some (f :: rest)
    | _, _ => none

/-- The binary branch of `readFaceList`, lines 367-389, on the two lists read
from the stream: `L.setSize(start.size()-1)` and the conversion loop.  The
result is nothing when a size is negative or an index is out of bounds. -/
def readFaceListBinary (start elems : List label) : Option (List face) :=
  if start.length = 0 then none else readFaces start elems (start.length - 1) 0

/-- The elements `elems[a .. b-1]`. -/
def slice (elems : List label) (a b : label) : List label :=
  (elems.drop a.toNat).take (b - a).toNat

/-- The OpenFOAM type `boundBox`: an axis-aligned box given by its minimum and
maximum corners. -/
structure boundBox where
  min : point
  max : point

/-- Component-wise minimum of two points, `Foam::min`. -/
def pointMin (a b : point) : point := fun i => Min.min (a i) (b i)

/-- Component-wise maximum of two points, `Foam::max`. -/
def pointMax (a b : point) : point := fun i => Max.max (a i) (b i)

/-- Library constructor `boundBox(points, false)` of OpenFOAM, which is not
part of the repository: the box is grown from the inverted box point by
point. -/
def boundBoxOfPoints (invertedBox : boundBox) (points : List point) : boundBox :=
  points.foldl (fun bb p => ⟨pointMin bb.min p, pointMax bb.max p⟩) invertedBox

/-- The function `procBounds`, lines 262-287.  The constant
`boundBox::invertedBox` of OpenFOAM and the points read from the files of the
processors, `readPoints proci`, are parameters. -/
def procBounds (invertedBox : boundBox) (readPoints : label → List point)
    (processorList : List label) : boundBox :=
  processorList.foldl
    (fun bb proci =>
      ⟨pointMin bb.min (boundBoxOfPoints invertedBox (readPoints proci)).min,
       pointMax bb.max (boundBoxOfPoints invertedBox (readPoints proci)).max⟩)
    invertedBox

/-- A box inverted at `±10^300`. -/
def sampleInvertedBox : boundBox :=
  ⟨fun _ => 10 ^ 300, fun _ => -10 ^ 300⟩

/-- Points of two processors: processor 0 holds two points, every other
processor one. -/
def samplePoints (proci : label) : List point :=
  if proci = 0 then [![0, 0, 0], ![1, 2, 3]] else [![-1, 5, 2]]

/-- A token of the stream: whether it is a word, and the word. -/
structure token where
  isWord : Bool
  wordToken : String

/-- A dictionary: keywords with their entries. -/
abbrev dictionary := List (String × String)

/-- The state of an input stream: whether it is good, its version and format,
and the input that is left. -/
structure Istream where
  good : Bool
  version : String
  format : String
  buffer : List String

/-- The fatal IO errors that `readHeader` can raise. -/
inductive FatalIOError where
  | streamNotGood
  | headerFailure
  | undefinedKeyword (keyword : String)
  | streamFailure
  deriving DecidableEq, Repr

/-- The function `readHeader`, lines 290-353.  Reading a token and reading a
dictionary from the stream are library operations of OpenFOAM and are
parameters; each returns what it read and the stream after reading.  Looking
up a keyword that the dictionary does not define is fatal. -/
def readHeader (readToken : Istream → token × Istream)
    (readDict : Istream → dictionary × Istream) (is : Istream) :
    Except FatalIOError Istream :=
  if !is.good then
    .error .streamNotGood
  else if (readToken is).2.good && (readToken is).1.isWord
      && (readToken is).1.wordToken == "FoamFile" then
    match (readDict (readToken is).2).1.lookup "version",
      (readDict (readToken is).2).1.lookup "format",
      (readDict (readToken is).2).1.lookup "class",
      (readDict (readToken is).2).1.lookup "object" with
    | some version, some format, some _, some _ =>
      if !(readDict (readToken is).2).2.good then
        .error .streamFailure
      else
        .ok ⟨(readDict (readToken is).2).2.good, version, format,
          (readDict (readToken is).2).2.buffer⟩
    | none, _, _, _ => .error (.undefinedKeyword "version")
    | _, none, _, _ => .error (.undefinedKeyword "format")
    | _, _, none, _ => .error (.undefinedKeyword "class")
    | _, _, _, none => .error (.undefinedKeyword "object")
  else
    .error .headerFailure

/-- A token reader for a stream of words: the next word of the buffer. -/
def sampleReadToken (is : Istream) : token × Istream :=
  (⟨true, is.buffer.headD ""⟩, ⟨is.good, is.version, is.format, is.buffer.tail⟩)

/-- A dictionary reader for a stream of words: the next four words are the
entries `version`, `format`, `class` and `object`. -/
def sampleReadDict (is : Istream) : dictionary × Istream :=
  ([("version", is.buffer.getD 0 ""), ("format", is.buffer.getD 1 ""),
    ("class", is.buffer.getD 2 ""), ("object", is.buffer.getD 3 "")],
   ⟨is.good, is.version, is.format, is.buffer.drop 4⟩)

/-- A good stream that starts with a binary face-list header. -/
def sampleStream : Istream :=
  ⟨true, "", "", ["FoamFile", "2.0", "binary", "faceCompactList", "faces", "rest"]⟩

/-! ## The quadrature table -/

/-- C1, counterexample: applied to the integrand 1 the tabulated rule gives
1.00000000000003, which is not the exact integral 1/2 of 1 over the unit
reference triangle. -/
theorem gaussRule_one_ne_integral :
    gaussRule 0 0 = 1.00000000000003 ∧ gaussRule 0 0 ≠ triangleMonomialIntegral 0 0 := by
  constructor <;> norm_num [gaussRule, gaussCoeff, triangleMonomialIntegral, Nat.factorial]

/-- C1, amended: for all exponents with `n + m ≤ 7` the tabulated rule applied
to `x^n y^m` agrees with twice the exact integral `n! m! / (n + m + 2)!`, that
is with the exact integral divided by the area 1/2 of the unit reference
triangle, up to an error of at most `3e-14`. -/
theorem gaussRule_twice_integral (n m : ℕ) (h : n + m ≤ 7) :
    |gaussRule n m - 2 * triangleMonomialIntegral n m| ≤ 3 / 10 ^ 14 := by
  have hn : n ≤ 7 := by omega
  have hm : m ≤ 7 := by omega
  interval_cases n <;> interval_cases m <;>
    first
    | (exfalso; omega)
    | norm_num [gaussRule, gaussCoeff, triangleMonomialIntegral, Nat.factorial, abs_le]

/-- C1, witness: the amended statement at the monomial `x^2`. -/
theorem gaussRule_twice_integral_witness :
    2 + 0 ≤ 7 ∧ |gaussRule 2 0 - 2 * triangleMonomialIntegral 2 0| ≤ 3 / 10 ^ 14 :=
  ⟨by decide, gaussRule_twice_integral 2 0 (by decide)⟩

/-- C2, counterexample: the 13 weights of `gaussCoeff` do not sum to the area
0.5 of the unit reference triangle. -/
theorem gaussWeightSum_ne_area : gaussWeightSum ≠ unitTriangleArea := by
  norm_num [gaussWeightSum, gaussCoeff, unitTriangleArea]

/-- C2, amended: the 13 weights of `gaussCoeff` sum to 1.00000000000003, which
is 1, twice the area of the unit reference triangle, up to `3e-14`. -/
theorem gaussWeightSum_value :
    gaussWeightSum = 1.00000000000003 ∧
      |gaussWeightSum - 2 * unitTriangleArea| ≤ 3 / 10 ^ 14 := by
  constructor <;> norm_num [gaussWeightSum, gaussCoeff, unitTriangleArea, abs_le]

/-! ## The reference frame -/

/-- The cofactor expansion `det3` is the determinant. -/
theorem det3_eq_det (J : scalarSquareMatrix) : det3 J = J.det := by
  rw [Matrix.det_fin_three]; unfold det3; ring

/-- The cofactor formula of `JacobiInverse` is the adjugate scaled by the
inverse determinant. -/
theorem JacobiInverse_eq_adjugate (J : scalarSquareMatrix) :
    JacobiInverse J = (J.det)⁻¹ • J.adjugate := by
  ext i j
  rw [← det3_eq_det]
  fin_cases i <;> fin_cases j <;>
    simp [JacobiInverse, Matrix.adjugate_fin_three, div_eq_inv_mul] <;>
    left <;> ring

/-- The matrix `JacobiInverse J` is a right inverse of a non-singular `J`. -/
theorem mul_JacobiInverse (J : scalarSquareMatrix) (h : J.det ≠ 0) :
    J * JacobiInverse J = 1 := by
  rw [JacobiInverse_eq_adjugate, Matrix.mul_smul, Matrix.mul_adjugate, smul_smul,
    inv_mul_cancel₀ h, one_smul]

/-- The matrix `JacobiInverse J` is a left inverse of a non-singular `J`. -/
theorem JacobiInverse_mul (J : scalarSquareMatrix) (h : J.det ≠ 0) :
    JacobiInverse J * J = 1 := by
  rw [JacobiInverse_eq_adjugate, Matrix.smul_mul, Matrix.adjugate_mul, smul_smul,
    inv_mul_cancel₀ h, one_smul]

/-- The sample Jacobian has determinant 2. -/
theorem sampleJ_det : sampleJ.det = 2 := by
  norm_num [Matrix.det_fin_three, sampleJ]

/-- C3: for every Jacobian `J` with non-zero determinant and all points `x`,
`x0`, mapping `x` to reference space with
`transformPoint (JacobiInverse J) x x0` and back with `J * xi + x0` returns
`x`. -/
theorem transformPoint_roundtrip (J : scalarSquareMatrix) (x x0 : point) (h : J.det ≠ 0) :
    transformBack J (transformPoint (JacobiInverse J) x x0) x0 = x := by
  unfold transformBack transformPoint
  rw [Matrix.mulVec_mulVec, mul_JacobiInverse J h, Matrix.one_mulVec]
  abel

/-- C3, witness: the round trip at a sample Jacobian of determinant 2. -/
theorem transformPoint_roundtrip_witness :
    sampleJ.det ≠ 0 ∧
      transformBack sampleJ (transformPoint (JacobiInverse sampleJ) ![1, 2, 3] ![0, 0, 1])
        ![0, 0, 1] = ![1, 2, 3] :=
  ⟨by rw [sampleJ_det]; norm_num,
   transformPoint_roundtrip sampleJ ![1, 2, 3] ![0, 0, 1] (by rw [sampleJ_det]; norm_num)⟩

/-- C4: for every 3x3 matrix `J` with non-zero determinant, `JacobiInverse J`
is the adjugate of `J` divided by `det J`, and `J * JacobiInverse J` and
`JacobiInverse J * J` both equal the identity matrix. -/
theorem JacobiInverse_is_inverse (J : scalarSquareMatrix) (h : J.det ≠ 0) :
    JacobiInverse J = (J.det)⁻¹ • J.adjugate ∧
      J * JacobiInverse J = 1 ∧ JacobiInverse J * J = 1 :=
  ⟨JacobiInverse_eq_adjugate J, mul_JacobiInverse J h, JacobiInverse_mul J h⟩

/-- C4, witness: the inverse of a sample Jacobian of determinant 2. -/
theorem JacobiInverse_is_inverse_witness :
    sampleJ.det ≠ 0 ∧
      JacobiInverse sampleJ = (sampleJ.det)⁻¹ • sampleJ.adjugate ∧
      sampleJ * JacobiInverse sampleJ = 1 ∧ JacobiInverse sampleJ * sampleJ = 1 :=
  ⟨by rw [sampleJ_det]; norm_num,
   JacobiInverse_is_inverse sampleJ (by rw [sampleJ_det]; norm_num)⟩

/-- C10: building the reference frame fails with the degenerate-geometry error
whenever the absolute value of the Jacobian determinant is below the
degeneracy epsilon, and then no frame, hence no inverse Jacobian, is
returned. -/
theorem referenceFrame_degenerate (eps : ℚ) (x0 x1 x2 x3 : point)
    (h : |(jacobi x0 x1 x2 x3).det| < eps) :
    referenceFrame eps x0 x1 x2 x3 = .error .degenerateGeometry ∧
      ∀ f, referenceFrame eps x0 x1 x2 x3 ≠ .ok f := by
  rw [← det3_eq_det] at h
  have hfail : referenceFrame eps x0 x1 x2 x3 = .error .degenerateGeometry := by
    unfold referenceFrame
    rw [if_pos h]
  refine ⟨hfail, fun f hf => ?_⟩
  rw [hfail] at hf
  cases hf

/-- C10, witness: four coplanar points give a Jacobian of determinant 0, below
the epsilon `1e-9`, and the frame is refused. -/
theorem referenceFrame_degenerate_witness :
    |(jacobi ![0, 0, 0] ![1, 0, 0] ![0, 1, 0] ![1, 1, 0]).det| < 1 / 10 ^ 9 ∧
      referenceFrame (1 / 10 ^ 9) ![0, 0, 0] ![1, 0, 0] ![0, 1, 0] ![1, 1, 0]
        = .error .degenerateGeometry ∧
      ∀ f, referenceFrame (1 / 10 ^ 9) ![0, 0, 0] ![1, 0, 0] ![0, 1, 0] ![1, 1, 0] ≠ .ok f :=
  ⟨by norm_num [Matrix.det_fin_three, jacobi, Matrix.vecHead, Matrix.vecTail],
   referenceFrame_degenerate (1 / 10 ^ 9) ![0, 0, 0] ![1, 0, 0] ![0, 1, 0] ![1, 1, 0]
     (by norm_num [Matrix.det_fin_three, jacobi, Matrix.vecHead, Matrix.vecTail])⟩

/-! ## The nonlinear weight blender -/

/-- Dividing every term of a sum by `S` divides the sum by `S`. -/
theorem sum_map_div {n : ℕ} (cs : List (Candidate n)) (g : Candidate n → ℚ) (S : ℚ) :
    (cs.map fun c => g c / S).sum = (cs.map g).sum / S := by
  induction cs with
  | nil => simp
  | cons c cs ih => simp only [List.map_cons, List.sum_cons, ih, add_div]

/-- A raw weight is positive for a positive ideal weight, `sigma ≥ 0` and `eps
> 0`. -/
theorem rawWeight_pos {n : ℕ} (eps : ℚ) (p : ℤ) (c : Candidate n) (heps : 0 < eps)
    (hd : 0 < c.d) (hs : 0 ≤ c.sigma) : 0 < rawWeight eps p c := by
  unfold rawWeight
  exact div_pos hd (zpow_pos (by linarith) p)

/-- The sum of the raw weights of a non-empty candidate list is positive. -/
theorem rawWeightSum_pos {n : ℕ} (eps : ℚ) (p : ℤ) (cs : List (Candidate n)) (heps : 0 < eps)
    (hne : cs ≠ []) (h : ∀ c ∈ cs, 0 < c.d ∧ 0 ≤ c.sigma) : 0 < rawWeightSum eps p cs := by
  unfold rawWeightSum
  induction cs with
  | nil => exact absurd rfl hne
  | cons c cs ih =>
    simp only [List.map_cons, List.sum_cons]
    have hc := h c (List.mem_cons_self _ _)
    have h1 := rawWeight_pos eps p c heps hc.1 hc.2
    by_cases hcs : cs = []
    · subst hcs; simpa using h1
    · have := ih hcs (fun c2 hc2 => h c2 (List.mem_cons_of_mem _ hc2))
      linarith

/-- Raw weight of a candidate with smoothness value 0. -/
theorem rawWeight_smooth {n : ℕ} (eps : ℚ) (p : ℤ) (c : Candidate n) (hs : c.sigma = 0) :
    rawWeight eps p c = c.d / eps ^ p := by
  simp [rawWeight, hs]

/-- Sum of the raw weights when all smoothness values are 0. -/
theorem rawWeightSum_smooth {n : ℕ} (eps : ℚ) (p : ℤ) (cs : List (Candidate n))
    (hs : ∀ c ∈ cs, c.sigma = 0) :
    rawWeightSum eps p cs = idealWeightSum cs / eps ^ p := by
  unfold rawWeightSum idealWeightSum
  rw [← sum_map_div cs (fun c => c.d) (eps ^ p)]
  congr 1
  apply List.map_congr_left
  intro c hc
  exact rawWeight_smooth eps p c (hs c hc)

/-- Normalised weight when all smoothness values are 0. -/
theorem nonlinearWeight_smooth {n : ℕ} (eps : ℚ) (p : ℤ) (cs : List (Candidate n))
    (heps : 0 < eps) (hs : ∀ c ∈ cs, c.sigma = 0) (c : Candidate n) (hc : c ∈ cs) :
    nonlinearWeight eps p cs c = c.d / idealWeightSum cs := by
  unfold nonlinearWeight
  rw [rawWeightSum_smooth eps p cs hs, rawWeight_smooth eps p c (hs c hc)]
  have : eps ^ p ≠ 0 := ne_of_gt (zpow_pos heps p)
  field_simp

/-- C5: for every non-empty list of candidate stencils with positive ideal
weights `d_k` and smoothness values `sigma_k ≥ 0`, every `eps > 0` and every
exponent `p`, the normalised nonlinear weights sum to 1. -/
theorem nonlinearWeights_sum_one {n : ℕ} (eps : ℚ) (p : ℤ) (cs : List (Candidate n))
    (heps : 0 < eps) (hne : cs ≠ []) (h : ∀ c ∈ cs, 0 < c.d ∧ 0 ≤ c.sigma) :
    (nonlinearWeights eps p cs).sum = 1 := by
  have hS := rawWeightSum_pos eps p cs heps hne h
  unfold nonlinearWeights nonlinearWeight
  rw [sum_map_div cs (rawWeight eps p) (rawWeightSum eps p cs)]
  exact div_self (ne_of_gt hS)

/-- C5, witness: a smooth and a non-smooth candidate, `eps = 1e-6`, `p = 2`. -/
theorem nonlinearWeights_sum_one_witness :
    (0 : ℚ) < 1 / 10 ^ 6 ∧ [candidateA, candidateC] ≠ [] ∧
      (∀ c ∈ [candidateA, candidateC], 0 < c.d ∧ 0 ≤ c.sigma) ∧
      (nonlinearWeights (1 / 10 ^ 6) 2 [candidateA, candidateC]).sum = 1 :=
  ⟨by norm_num, by simp, by simp [candidateA, candidateC],
   nonlinearWeights_sum_one (1 / 10 ^ 6) 2 [candidateA, candidateC] (by norm_num) (by simp)
     (by simp [candidateA, candidateC])⟩

/-- C6, counterexample: with all smoothness values 0 and ideal weights 1000
and 1, the normalised weight of the first stencil is 1000/1001 and not its
ideal weight 1000, and the blended coefficient is not the `d_k`-weighted sum
of the candidates. -/
theorem smooth_weight_ne_ideal :
    centralCandidate.sigma = 0 ∧ sectorCandidate.sigma = 0 ∧
      nonlinearWeight (1 / 10 ^ 6) 2 [centralCandidate, sectorCandidate] centralCandidate
        = 1000 / 1001 ∧
      nonlinearWeight (1 / 10 ^ 6) 2 [centralCandidate, sectorCandidate] centralCandidate
        ≠ centralCandidate.d ∧
      calcWeight (1 / 10 ^ 6) 2 [centralCandidate, sectorCandidate] 0
        ≠ centralCandidate.d * centralCandidate.coeffs 0
          + sectorCandidate.d * sectorCandidate.coeffs 0 := by
  refine ⟨rfl, rfl, ?_, ?_, ?_⟩ <;>
    norm_num [calcWeight, nonlinearWeight, rawWeightSum, rawWeight, centralCandidate,
      sectorCandidate]

/-- C6, amended: when every candidate's smoothness value is 0, the normalised
weight of each stencil is its ideal weight divided by the sum of the ideal
weights, and the blended coefficient vector is the sum of the candidates'
coefficients with these weights; when the ideal weights sum to 1 the weights
are the ideal weights `d_k` and the blend is the `d_k`-weighted sum. -/
theorem calcWeight_smooth {n : ℕ} (eps : ℚ) (p : ℤ) (cs : List (Candidate n))
    (heps : 0 < eps) (hs : ∀ c ∈ cs, c.sigma = 0) :
    (∀ c ∈ cs, nonlinearWeight eps p cs c = c.d / idealWeightSum cs) ∧
    (∀ i, calcWeight eps p cs i
      = (cs.map fun c => c.d / idealWeightSum cs * c.coeffs i).sum) ∧
    (idealWeightSum cs = 1 →
      (∀ c ∈ cs, nonlinearWeight eps p cs c = c.d) ∧
      (∀ i, calcWeight eps p cs i = (cs.map fun c => c.d * c.coeffs i).sum)) := by
  have h1 := nonlinearWeight_smooth eps p cs heps hs
  have h2 : ∀ i, calcWeight eps p cs i
      = (cs.map fun c => c.d / idealWeightSum cs * c.coeffs i).sum := by
    intro i
    unfold calcWeight
    congr 1
    apply List.map_congr_left
    intro c hc
    rw [h1 c hc]
  refine ⟨h1, h2, ?_⟩
  intro hD
  constructor
  · intro c hc; rw [h1 c hc, hD, div_one]
  · intro i; rw [h2 i, hD]; simp

/-- C6, witness: two smooth candidates with ideal weights 3/4 and 1/4. -/
theorem calcWeight_smooth_witness :
    (0 : ℚ) < 1 / 10 ^ 6 ∧ (∀ c ∈ [candidateA, candidateB], c.sigma = 0) ∧
      idealWeightSum [candidateA, candidateB] = 1 ∧
      (∀ c ∈ [candidateA, candidateB],
        nonlinearWeight (1 / 10 ^ 6) 2 [candidateA, candidateB] c = c.d) ∧
      (∀ i, calcWeight (1 / 10 ^ 6) 2 [candidateA, candidateB] i
        = ([candidateA, candidateB].map fun c => c.d * c.coeffs i).sum) :=
  ⟨by norm_num, by simp [candidateA, candidateB],
   by norm_num [idealWeightSum, candidateA, candidateB],
   ((calcWeight_smooth (1 / 10 ^ 6) 2 [candidateA, candidateB] (by norm_num)
      (by simp [candidateA, candidateB])).2.2
      (by norm_num [idealWeightSum, candidateA, candidateB])).1,
   ((calcWeight_smooth (1 / 10 ^ 6) 2 [candidateA, candidateB] (by norm_num)
      (by simp [candidateA, candidateB])).2.2
      (by norm_num [idealWeightSum, candidateA, candidateB])).2⟩

/-! ## The polynomial fit solver -/

/-- With fewer rows than columns the normal equations are singular. -/
theorem det_normal_of_lt {m n : ℕ} (A : Matrix (Fin m) (Fin n) ℚ) (h : m < n) :
    (Aᵀ * A).det = 0 := by
  by_contra hne
  have hu : IsUnit (Aᵀ * A) := (Matrix.isUnit_iff_isUnit_det _).mpr (IsUnit.mk0 _ hne)
  have h1 : (Aᵀ * A).rank = n := by
    rw [Matrix.rank_of_isUnit _ hu, Fintype.card_fin]
  have h2 : (Aᵀ * A).rank ≤ m := by
    rw [Matrix.rank_transpose_mul_self]
    exact Matrix.rank_le_height A
  omega

/-- A stencil that is not rank-deficient has no coincident cell and normal
equations that are non-singular and not below the epsilon. -/
theorem rankDeficient_eq_false (eps : ℚ) (dim : ℕ × ℕ × ℕ) (r : ℕ) {m : ℕ}
    (owner : volIntegralType) (members : Fin m → volIntegralType)
    (h : rankDeficient eps dim r owner members = false) :
    hasCoincidentCell owner members = false ∧
      ((fitMatrix dim r owner members)ᵀ * fitMatrix dim r owner members).det ≠ 0 ∧
      ¬ |((fitMatrix dim r owner members)ᵀ * fitMatrix dim r owner members).det| < eps := by
  unfold rankDeficient at h
  rw [Bool.or_eq_false_iff, decide_eq_false_iff_not] at h
  exact ⟨h.1, fun h0 => h.2 (Or.inl h0), fun h0 => h.2 (Or.inr h0)⟩

/-- A stencil that is not rank-deficient has at least as many members as there
are basis functions. -/
theorem length_le_of_not_rankDeficient (eps : ℚ) (dim : ℕ × ℕ × ℕ) (r : ℕ) {m : ℕ}
    (owner : volIntegralType) (members : Fin m → volIntegralType)
    (h : rankDeficient eps dim r owner members = false) :
    (activeExponents dim r).length ≤ m := by
  by_contra hlt
  exact (rankDeficient_eq_false eps dim r owner members h).2.1
    (det_normal_of_lt _ (not_le.mp hlt))

/-- A cell has zero separation from itself. -/
theorem separationSq_self (T : volIntegralType) : separationSq T T = 0 := by
  simp [separationSq]

/-- A stencil with two members at zero separation, or a member at zero
separation from the owner, is rank-deficient. -/
theorem rankDeficient_of_coincident (eps : ℚ) (dim : ℕ × ℕ × ℕ) (r : ℕ) {m : ℕ}
    (owner : volIntegralType) (members : Fin m → volIntegralType)
    (hrep : (∃ i j, i ≠ j ∧ separationSq (members i) (members j) = 0)
      ∨ ∃ i, separationSq (members i) owner = 0) :
    rankDeficient eps dim r owner members = true := by
  unfold rankDeficient hasCoincidentCell
  rw [Bool.or_eq_true, decide_eq_true_eq]
  exact Or.inl hrep

/-- The only non-constant basis function of order 1 with `x` as the only
active direction is `x`. -/
theorem activeExponents_x : activeExponents (1, 0, 0) 1 = [(1, 0, 0)] := by
  decide

/-- The four-member stencil contains a repeated cell. -/
theorem repeatedCellStencil_repeated :
    ∃ i j, i ≠ j ∧ repeatedCellStencil i = repeatedCellStencil j :=
  ⟨2, 3, by decide, by simp [repeatedCellStencil]⟩

/-- The normal equations of the four-member stencil with a repeated cell have
determinant 2: the stencil has more members than basis functions and full
column rank. -/
theorem det_normal_repeatedCellStencil :
    ((fitMatrix (1, 1, 1) 1 (cellAt 0 0 0) repeatedCellStencil)ᵀ
      * fitMatrix (1, 1, 1) 1 (cellAt 0 0 0) repeatedCellStencil).det = 2 := by
  decide!

/-- C9: for every stencil that contains a repeated or coincident cell, that is
a cell that appears twice among the members, two members at zero geometric
separation, or a member at zero separation from the owner, the fit solver fails
with the rank-deficient-stencil error and returns no coefficients, whatever the
order, the samples and the number of members. -/
theorem polyFit_repeated_cell (eps : ℚ) (dim : ℕ × ℕ × ℕ) (r : ℕ) {m : ℕ}
    (owner : volIntegralType) (members : Fin m → volIntegralType) (ownerSample : ℚ)
    (samples : Fin m → ℚ)
    (hrep : (∃ i j, i ≠ j ∧ members i = members j)
      ∨ (∃ i j, i ≠ j ∧ separationSq (members i) (members j) = 0)
      ∨ ∃ i, separationSq (members i) owner = 0) :
    polyFit eps dim r owner members ownerSample samples = .error .rankDeficientStencil ∧
      ∀ c, polyFit eps dim r owner members ownerSample samples ≠ .ok c := by
  have hsep : (∃ i j, i ≠ j ∧ separationSq (members i) (members j) = 0)
      ∨ ∃ i, separationSq (members i) owner = 0 := by
    rcases hrep with ⟨i, j, hij, hmem⟩ | h | h
    · exact Or.inl ⟨i, j, hij, by rw [hmem]; exact separationSq_self _⟩
    · exact Or.inl h
    · exact Or.inr h
  have hfail : polyFit eps dim r owner members ownerSample samples
      = .error .rankDeficientStencil := by
    unfold polyFit
    rw [rankDeficient_of_coincident eps dim r owner members hsep]
    rfl
  refine ⟨hfail, fun c hc => ?_⟩
  rw [hfail] at hc
  cases hc

/-- C9, witness: four members for the three basis functions of order 1, the
cell at distance 1 along `z` appearing twice; the normal equations have full
rank and the samples are not those of a polynomial, and the fit is refused. -/
theorem polyFit_repeated_cell_witness :
    ((∃ i j, i ≠ j ∧ repeatedCellStencil i = repeatedCellStencil j)
        ∨ (∃ i j, i ≠ j ∧ separationSq (repeatedCellStencil i) (repeatedCellStencil j) = 0)
        ∨ ∃ i, separationSq (repeatedCellStencil i) (cellAt 0 0 0) = 0) ∧
      ((fitMatrix (1, 1, 1) 1 (cellAt 0 0 0) repeatedCellStencil)ᵀ
        * fitMatrix (1, 1, 1) 1 (cellAt 0 0 0) repeatedCellStencil).det = 2 ∧
      polyFit 0 (1, 1, 1) 1 (cellAt 0 0 0) repeatedCellStencil 1 ![3, 1, 1, 5]
        = .error .rankDeficientStencil ∧
      ∀ c, polyFit 0 (1, 1, 1) 1 (cellAt 0 0 0) repeatedCellStencil 1 ![3, 1, 1, 5] ≠ .ok c :=
  ⟨Or.inl repeatedCellStencil_repeated, det_normal_repeatedCellStencil,
   polyFit_repeated_cell 0 (1, 1, 1) 1 (cellAt 0 0 0) repeatedCellStencil 1 ![3, 1, 1, 5]
     (Or.inl repeatedCellStencil_repeated)⟩

/-! ## Shape of the quadrature table -/

/-- C14: the face quadrature rule is a fixed table of exactly 13 points, and
every tabulated point lies in the standard triangle: `x ≥ 0`, `y ≥ 0` and `x +
y ≤ 1`. -/
theorem gaussCoeff_points_valid :
    gaussCoeff.length = 13 ∧
      ∀ r ∈ gaussCoeff, 0 ≤ r.1 ∧ 0 ≤ r.2.1 ∧ r.1 + r.2.1 ≤ 1 := by
  refine ⟨rfl, ?_⟩
  intro r hr
  simp only [gaussCoeff, List.mem_cons, List.mem_singleton, List.not_mem_nil, or_false] at hr
  rcases hr with h | h | h | h | h | h | h | h | h | h | h | h | h <;> subst h <;> norm_num

/-- With every row `(x, y, w)` the table holds the row `(y, x, w)`. -/
theorem gaussCoeff_swap_mem :
    ∀ r ∈ gaussCoeff, (r.2.1, r.1, r.2.2) ∈ gaussCoeff := by
  intro r hr
  simp only [gaussCoeff, List.mem_cons, List.mem_singleton, List.not_mem_nil, or_false] at hr
  rcases hr with h | h | h | h | h | h | h | h | h | h | h | h | h <;> subst h <;>
    simp [gaussCoeff]

/-- The rule gives the same value for `x^n y^m` and for `x^m y^n`. -/
theorem gaussRule_symm (n m : ℕ) : gaussRule n m = gaussRule m n := by
  simp only [gaussRule, gaussCoeff, List.map_cons, List.map_nil, List.sum_cons, List.sum_nil]
  ring

/-- C19: the table `gaussCoeff` is symmetric under exchanging the two
coordinates: with every row `(x, y, w)` the row `(y, x, w)` is in the table,
and the rule gives the same result for `x^n y^m` and `x^m y^n` for all
exponents. -/
theorem gaussCoeff_symmetric :
    (∀ r ∈ gaussCoeff, (r.2.1, r.1, r.2.2) ∈ gaussCoeff) ∧
      ∀ n m : ℕ, gaussRule n m = gaussRule m n :=
  ⟨gaussCoeff_swap_mem, gaussRule_symm⟩

/-- On a monomial, `gaussApply` is `gaussRule`. -/
theorem gaussApply_monomial (n m : ℕ) :
    gaussApply (fun x y => x ^ n * y ^ m) = gaussRule n m := by
  unfold gaussApply gaussRule
  congr 1
  apply List.map_congr_left
  intro r _
  ring

/-- The integrand `centroidSpike` is non-negative. -/
theorem centroidSpike_nonneg (x y : ℚ) : 0 ≤ centroidSpike x y := by
  unfold centroidSpike
  split_ifs <;> norm_num

/-- The rule applied to `centroidSpike` returns the weight of row 0. -/
theorem gaussApply_centroidSpike : gaussApply centroidSpike = -0.14957004446768 := by
  norm_num [gaussApply, gaussCoeff, centroidSpike]

/-- C20: the weights of `gaussCoeff` are not all positive: row 0, the centroid
point, has the negative weight `-0.14957004446768`, it is the only row with a
negative weight, the other 12 weights are strictly positive, and for some non-
negative integrand the rule returns a negative value. -/
theorem gaussCoeff_negative_weight :
    gaussCoeff.head? = some (0.33333333333333, 0.33333333333333, -0.14957004446768) ∧
      (∀ r ∈ gaussCoeff.head?, r.2.2 < 0) ∧
      (∀ r ∈ gaussCoeff.tail, 0 < r.2.2) ∧
      (gaussCoeff.filter fun r => decide (r.2.2 < 0)).length = 1 ∧
      (gaussCoeff.filter fun r => decide (0 < r.2.2)).length = 12 ∧
      ∃ f : ℚ → ℚ → ℚ, (∀ x y, 0 ≤ f x y) ∧ gaussApply f < 0 := by
  refine ⟨rfl, ?_, ?_, ?_, ?_, centroidSpike, centroidSpike_nonneg, ?_⟩
  · intro r hr
    have h : r = (0.33333333333333, 0.33333333333333, -0.14957004446768) := by
      have h2 : gaussCoeff.head? = some r := hr
      rw [show gaussCoeff.head?
        = some (0.33333333333333, 0.33333333333333, -0.14957004446768) from rfl] at h2
      exact (Option.some.inj h2).symm
    rw [h]
    norm_num
  · intro r hr
    simp only [gaussCoeff, List.tail_cons, List.mem_cons, List.mem_singleton, List.not_mem_nil,
      or_false] at hr
    rcases hr with h | h | h | h | h | h | h | h | h | h | h | h <;> subst h <;> norm_num
  · norm_num [gaussCoeff, List.filter]
  · norm_num [gaussCoeff, List.filter]
  · rw [gaussApply_centroidSpike]; norm_num

/-! ## The moment integral engine -/

/-- The moment of order 0 of a tetrahedron is its volume, a sixth of the
absolute value of the determinant of its edge vectors. -/
theorem tetIntegral_volume (t : Tet) :
    tetIntegral t 0 0 0 = |det3 (jacobi t.p0 t.p1 t.p2 t.p3)| / 6 := by
  simp [tetIntegral, Poly3.pow, Poly3.mul, refTetIntegral, Fac, Nat.factorial]
  ring

/-- The integrals of `1`, `x` and `x^2` over the unit cube in its own frame. -/
theorem unitCube_cellIntegral :
    cellIntegral unitCubeTets unitFrameInverse ![0, 0, 0] 0 0 0 = 1 ∧
      cellIntegral unitCubeTets unitFrameInverse ![0, 0, 0] 1 0 0 = 1 / 2 ∧
      cellIntegral unitCubeTets unitFrameInverse ![0, 0, 0] 2 0 0 = 1 / 3 := by
  refine ⟨?_, ?_, ?_⟩ <;> decide!

/-- C11: for a unit cube reference cell and every maximal degree of at least 2,
the volume moment table has entry `(0,0,0)` equal to 1, entry `(1,0,0)` equal
to 1/2 and entry `(2,0,0)` equal to 1/3. -/
theorem unitCube_moments (maxDegree : ℕ) (h : 2 ≤ maxDegree) :
    computeVolumeIntegrals unitCubeTets unitFrameInverse ![0, 0, 0] maxDegree 0 0 0 = 1 ∧
      computeVolumeIntegrals unitCubeTets unitFrameInverse ![0, 0, 0] maxDegree 1 0 0 = 1 / 2 ∧
      computeVolumeIntegrals unitCubeTets unitFrameInverse ![0, 0, 0] maxDegree 2 0 0
        = 1 / 3 := by
  unfold computeVolumeIntegrals
  rw [if_pos (by omega), if_pos (by omega), if_pos (by omega)]
  exact unitCube_cellIntegral

/-- C11, witness: the table up to degree 2, as needed for order 1. -/
theorem unitCube_moments_witness :
    2 ≤ 2 ∧
      computeVolumeIntegrals unitCubeTets unitFrameInverse ![0, 0, 0] 2 0 0 0 = 1 ∧
      computeVolumeIntegrals unitCubeTets unitFrameInverse ![0, 0, 0] 2 1 0 0 = 1 / 2 ∧
      computeVolumeIntegrals unitCubeTets unitFrameInverse ![0, 0, 0] 2 2 0 0 = 1 / 3 :=
  ⟨le_rfl, unitCube_moments 2 le_rfl⟩

/-! ## Integrals of polynomials over tetrahedra -/

/-- The integral of `x^a (1 - x)^b` over the unit interval is
`a! b! / (a + b + 1)!`. -/
theorem integral_pow_mul_one_sub_pow (a b : ℕ) :
    ∫ x in (0 : ℝ)..1, x ^ a * (1 - x) ^ b
      = (a.factorial : ℝ) * (b.factorial : ℝ) / ((a + b + 1).factorial : ℝ) := by
  induction b generalizing a with
  | zero =>
    simp only [pow_zero, mul_one, Nat.factorial_zero, Nat.cast_one, add_zero]
    rw [integral_pow, Nat.factorial_succ]
    push_cast
    have h1 : (a.factorial : ℝ) ≠ 0 := by positivity
    have h2 : (a : ℝ) + 1 ≠ 0 := by positivity
    field_simp
  | succ b ih =>
    have hsplit : ∀ x : ℝ, x ^ a * (1 - x) ^ (b + 1)
        = x ^ a * (1 - x) ^ b - x ^ (a + 1) * (1 - x) ^ b := by
      intro x; ring
    simp only [hsplit]
    rw [intervalIntegral.integral_sub, ih a, ih (a + 1)]
    · rw [show a + 1 + b + 1 = (a + b + 1) + 1 by ring,
        show a + (b + 1) + 1 = (a + b + 1) + 1 by ring,
        Nat.factorial_succ (a + b + 1), Nat.factorial_succ a, Nat.factorial_succ b]
      push_cast
      have h1 : ((a + b + 1).factorial : ℝ) ≠ 0 := by positivity
      have h2 : (a : ℝ) + b + 1 + 1 ≠ 0 := by positivity
      field_simp
      ring
    · exact (by fun_prop : Continuous fun x : ℝ => x ^ a * (1 - x) ^ b).intervalIntegrable _ _
    · exact (by fun_prop : Continuous fun x : ℝ => x ^ (a + 1) * (1 - x) ^ b).intervalIntegrable _ _

/-- The integral over the unit interval of a finite sum of continuous functions
is the sum of their integrals. -/
theorem integral_list_sum {ι : Type} (l : List ι) (F : ι → ℝ → ℝ)
    (hF : ∀ t, Continuous (F t)) :
    ∫ x in (0 : ℝ)..1, (l.map fun t => F t x).sum
      = (l.map fun t => ∫ x in (0 : ℝ)..1, F t x).sum := by
  induction l with
  | nil => simp
  | cons t l ih =>
    simp only [List.map_cons, List.sum_cons]
    rw [intervalIntegral.integral_add ((hF t).intervalIntegrable _ _)
      ((continuous_list_sum l fun i _ => hF i).intervalIntegrable _ _), ih]

/-- The value of a polynomial times a factor, term by term. -/
theorem eval_mul_const (p : Poly3) (x y z c : ℝ) :
    Poly3.eval p x y z * c
      = (p.map fun t => (t.1 : ℝ) * x ^ t.2.1 * y ^ t.2.2.1 * z ^ t.2.2.2 * c).sum := by
  unfold Poly3.eval
  rw [← List.sum_map_mul_right]

/-- The innermost integral of one term in the coordinates that map the unit
cube onto the reference tetrahedron. -/
theorem term_integral_w (c u v : ℝ) (i j k : ℕ) :
    ∫ w in (0 : ℝ)..1,
        c * u ^ i * ((1 - u) * v) ^ j * ((1 - u) * (1 - v) * w) ^ k * ((1 - u) ^ 2 * (1 - v))
      = c * (u ^ i * (1 - u) ^ (j + k + 2)) * (v ^ j * (1 - v) ^ (k + 1)) / (k + 1) := by
  have hrw : ∀ w : ℝ,
      c * u ^ i * ((1 - u) * v) ^ j * ((1 - u) * (1 - v) * w) ^ k * ((1 - u) ^ 2 * (1 - v))
        = (c * (u ^ i * (1 - u) ^ (j + k + 2)) * (v ^ j * (1 - v) ^ (k + 1))) * w ^ k := by
    intro w
    rw [mul_pow, mul_pow, mul_pow]
    ring
  simp only [hrw]
  rw [intervalIntegral.integral_const_mul, integral_pow]
  simp
  ring

/-- The middle integral of one term. -/
theorem term_integral_v (c u : ℝ) (i j k : ℕ) :
    ∫ v in (0 : ℝ)..1,
        c * (u ^ i * (1 - u) ^ (j + k + 2)) * (v ^ j * (1 - v) ^ (k + 1)) / (k + 1)
      = c * (j.factorial * (k + 1).factorial / ((j + k + 2).factorial * (k + 1)))
          * (u ^ i * (1 - u) ^ (j + k + 2)) := by
  have hrw : ∀ v : ℝ,
      c * (u ^ i * (1 - u) ^ (j + k + 2)) * (v ^ j * (1 - v) ^ (k + 1)) / (k + 1)
        = (c * (u ^ i * (1 - u) ^ (j + k + 2)) / (k + 1)) * (v ^ j * (1 - v) ^ (k + 1)) := by
    intro v; ring
  simp only [hrw]
  rw [intervalIntegral.integral_const_mul, integral_pow_mul_one_sub_pow,
    show j + (k + 1) + 1 = j + k + 2 by ring]
  have h1 : ((j + k + 2).factorial : ℝ) ≠ 0 := by positivity
  have h2 : (k : ℝ) + 1 ≠ 0 := by positivity
  field_simp
  ring

/-- The outermost integral of one term. -/
theorem term_integral_u (c : ℝ) (i j k : ℕ) :
    ∫ u in (0 : ℝ)..1,
        c * (j.factorial * (k + 1).factorial / ((j + k + 2).factorial * (k + 1)))
          * (u ^ i * (1 - u) ^ (j + k + 2))
      = c * (i.factorial * j.factorial * k.factorial / (i + j + k + 3).factorial) := by
  rw [intervalIntegral.integral_const_mul, integral_pow_mul_one_sub_pow,
    show i + (j + k + 2) + 1 = i + j + k + 3 by ring, Nat.factorial_succ k]
  push_cast
  have h1 : ((j + k + 2).factorial : ℝ) ≠ 0 := by positivity
  have h2 : (k : ℝ) + 1 ≠ 0 := by positivity
  have h3 : ((i + j + k + 3).factorial : ℝ) ≠ 0 := by positivity
  field_simp
  ring

/-- The formula of `refTetIntegral` is the integral over the reference
tetrahedron, written over the unit cube with the coordinates `x = u`,
`y = (1 - u) v`, `z = (1 - u) (1 - v) w` and their Jacobian
`(1 - u)^2 (1 - v)`. -/
theorem refTetIntegral_eq_integral (p : Poly3) :
    ((refTetIntegral p : ℚ) : ℝ)
      = ∫ u in (0 : ℝ)..1, ∫ v in (0 : ℝ)..1, ∫ w in (0 : ℝ)..1,
          Poly3.eval p u ((1 - u) * v) ((1 - u) * (1 - v) * w) * ((1 - u) ^ 2 * (1 - v)) := by
  simp only [eval_mul_const]
  have hW : ∀ u v : ℝ, ∫ w in (0 : ℝ)..1, (p.map fun t => (t.1 : ℝ) * u ^ t.2.1
        * ((1 - u) * v) ^ t.2.2.1 * ((1 - u) * (1 - v) * w) ^ t.2.2.2
        * ((1 - u) ^ 2 * (1 - v))).sum
      = (p.map fun t => (t.1 : ℝ) * (u ^ t.2.1 * (1 - u) ^ (t.2.2.1 + t.2.2.2 + 2))
        * (v ^ t.2.2.1 * (1 - v) ^ (t.2.2.2 + 1)) / (t.2.2.2 + 1)).sum := by
    intro u v
    rw [integral_list_sum p (fun t w => (t.1 : ℝ) * u ^ t.2.1
        * ((1 - u) * v) ^ t.2.2.1 * ((1 - u) * (1 - v) * w) ^ t.2.2.2
        * ((1 - u) ^ 2 * (1 - v))) (fun t => by fun_prop)]
    simp only [term_integral_w]
  have hV : ∀ u : ℝ, ∫ v in (0 : ℝ)..1,
        (p.map fun t => (t.1 : ℝ) * (u ^ t.2.1 * (1 - u) ^ (t.2.2.1 + t.2.2.2 + 2))
          * (v ^ t.2.2.1 * (1 - v) ^ (t.2.2.2 + 1)) / (t.2.2.2 + 1)).sum
      = (p.map fun t => (t.1 : ℝ) * (t.2.2.1.factorial * (t.2.2.2 + 1).factorial
          / ((t.2.2.1 + t.2.2.2 + 2).factorial * (t.2.2.2 + 1)))
          * (u ^ t.2.1 * (1 - u) ^ (t.2.2.1 + t.2.2.2 + 2))).sum := by
    intro u
    rw [integral_list_sum p (fun t v => (t.1 : ℝ)
        * (u ^ t.2.1 * (1 - u) ^ (t.2.2.1 + t.2.2.2 + 2))
        * (v ^ t.2.2.1 * (1 - v) ^ (t.2.2.2 + 1)) / (t.2.2.2 + 1)) (fun t => by fun_prop)]
    simp only [term_integral_v]
  simp only [hW, hV]
  rw [integral_list_sum p (fun t u => (t.1 : ℝ) * (t.2.2.1.factorial * (t.2.2.2 + 1).factorial
          / ((t.2.2.1 + t.2.2.2 + 2).factorial * (t.2.2.2 + 1)))
          * (u ^ t.2.1 * (1 - u) ^ (t.2.2.1 + t.2.2.2 + 2))) (fun t => by fun_prop)]
  simp only [term_integral_u]
  unfold refTetIntegral Fac
  rw [Rat.cast_list_sum, List.map_map]
  refine congrArg List.sum (List.map_congr_left fun t _ => ?_)
  simp only [Function.comp]
  push_cast
  rfl

/-- The integral over the reference tetrahedron of a polynomial that is
non-negative on it is non-negative. -/
theorem refTetIntegral_nonneg (p : Poly3)
    (h : ∀ x y z : ℝ, 0 ≤ x → 0 ≤ y → 0 ≤ z → x + y + z ≤ 1 → 0 ≤ Poly3.eval p x y z) :
    0 ≤ refTetIntegral p := by
  have hnn : (0 : ℝ) ≤ ((refTetIntegral p : ℚ) : ℝ) := by
    rw [refTetIntegral_eq_integral]
    refine intervalIntegral.integral_nonneg zero_le_one fun u hu => ?_
    refine intervalIntegral.integral_nonneg zero_le_one fun v hv => ?_
    refine intervalIntegral.integral_nonneg zero_le_one fun w hw => ?_
    have hu1 : 0 ≤ 1 - u := sub_nonneg.mpr hu.2
    have hv1 : 0 ≤ 1 - v := sub_nonneg.mpr hv.2
    have hw1 : 0 ≤ 1 - w := sub_nonneg.mpr hw.2
    refine mul_nonneg (h _ _ _ hu.1 (mul_nonneg hu1 hv.1)
      (mul_nonneg (mul_nonneg hu1 hv1) hw.1) ?_) (mul_nonneg (sq_nonneg _) hv1)
    have hid : 1 - (u + (1 - u) * v + (1 - u) * (1 - v) * w) = (1 - u) * (1 - v) * (1 - w) := by
      ring
    have hprod : 0 ≤ (1 - u) * (1 - v) * (1 - w) := mul_nonneg (mul_nonneg hu1 hv1) hw1
    linarith
  exact_mod_cast hnn

/-! ## Polynomials as lists of terms -/

/-- The value of a list of terms followed by another is the sum of the values. -/
theorem eval_append (p q : Poly3) (x y z : ℝ) :
    Poly3.eval (p ++ q) x y z = Poly3.eval p x y z + Poly3.eval q x y z := by
  simp [Poly3.eval]

/-- Scaling every coefficient scales the value. -/
theorem eval_scale (a : ℚ) (p : Poly3) (x y z : ℝ) :
    Poly3.eval (p.map fun t => (a * t.1, t.2)) x y z = a * Poly3.eval p x y z := by
  unfold Poly3.eval
  rw [List.map_map, ← List.sum_map_mul_left]
  refine congrArg List.sum (List.map_congr_left fun t _ => ?_)
  simp only [Function.comp]
  push_cast
  ring

/-- The value of a concatenation of polynomials is the sum of their values. -/
theorem eval_flatMap {ι : Type} (l : List ι) (f : ι → Poly3) (x y z : ℝ) :
    Poly3.eval (l.flatMap f) x y z = (l.map fun i => Poly3.eval (f i) x y z).sum := by
  induction l with
  | nil => simp [Poly3.eval]
  | cons i l ih => simp [List.flatMap_cons, eval_append, ih]

/-- The value of a product is the product of the values. -/
theorem eval_mul (p q : Poly3) (x y z : ℝ) :
    Poly3.eval (Poly3.mul p q) x y z = Poly3.eval p x y z * Poly3.eval q x y z := by
  unfold Poly3.mul
  rw [eval_flatMap]
  unfold Poly3.eval
  rw [← List.sum_map_mul_right]
  refine congrArg List.sum (List.map_congr_left fun s _ => ?_)
  rw [List.map_map, ← List.sum_map_mul_left]
  refine congrArg List.sum (List.map_congr_left fun t _ => ?_)
  simp only [Function.comp]
  push_cast
  ring

/-- The value of a power is the power of the value. -/
theorem eval_pow (p : Poly3) (n : ℕ) (x y z : ℝ) :
    Poly3.eval (Poly3.pow p n) x y z = Poly3.eval p x y z ^ n := by
  induction n with
  | zero => simp [Poly3.pow, Poly3.eval]
  | succ n ih => rw [Poly3.pow, eval_mul, ih, pow_succ, mul_comm]

/-- The integral over the reference tetrahedron is additive. -/
theorem refTetIntegral_append (p q : Poly3) :
    refTetIntegral (p ++ q) = refTetIntegral p + refTetIntegral q := by
  simp [refTetIntegral]

/-- Scaling every coefficient scales the integral. -/
theorem refTetIntegral_scale (a : ℚ) (p : Poly3) :
    refTetIntegral (p.map fun t => (a * t.1, t.2)) = a * refTetIntegral p := by
  unfold refTetIntegral
  rw [List.map_map, ← List.sum_map_mul_left]
  refine congrArg List.sum (List.map_congr_left fun t _ => ?_)
  simp only [Function.comp]
  ring

/-- The integral of a concatenation of polynomials is the sum of their
integrals. -/
theorem refTetIntegral_flatMap {ι : Type} (l : List ι) (f : ι → Poly3) :
    refTetIntegral (l.flatMap f) = (l.map fun i => refTetIntegral (f i)).sum := by
  induction l with
  | nil => simp [refTetIntegral]
  | cons i l ih => simp [List.flatMap_cons, refTetIntegral_append, ih]

/-- The integrals of the monomials over a tetrahedron integrate the square of
every polynomial to a non-negative value: for all coefficients `c s` and
exponents `e s`, the sum of `c s * c t` times the integral of the monomial with
exponents `e s + e t` is at least zero. -/
theorem tetIntegral_square_nonneg (T : Tet) (k : ℕ) (c : Fin k → ℚ)
    (e : Fin k → ℕ × ℕ × ℕ) :
    0 ≤ ∑ s, ∑ t, c s * c t
      * tetIntegral T ((e s).1 + (e t).1) ((e s).2.1 + (e t).2.1) ((e s).2.2 + (e t).2.2) := by
  have key : ∑ s, ∑ t, c s * c t
        * tetIntegral T ((e s).1 + (e t).1) ((e s).2.1 + (e t).2.1) ((e s).2.2 + (e t).2.2)
      = |det3 (jacobi T.p0 T.p1 T.p2 T.p3)|
        * refTetIntegral ((List.finRange k).flatMap fun s => (List.finRange k).flatMap fun t =>
            (Poly3.mul (Poly3.pow (T.coord 0) ((e s).1 + (e t).1))
              (Poly3.mul (Poly3.pow (T.coord 1) ((e s).2.1 + (e t).2.1))
                (Poly3.pow (T.coord 2) ((e s).2.2 + (e t).2.2)))).map
              fun u => (c s * c t * u.1, u.2)) := by
    rw [refTetIntegral_flatMap, Fin.sum_univ_def, ← List.sum_map_mul_left]
    refine congrArg List.sum (List.map_congr_left fun s _ => ?_)
    rw [refTetIntegral_flatMap, Fin.sum_univ_def, ← List.sum_map_mul_left]
    refine congrArg List.sum (List.map_congr_left fun t _ => ?_)
    rw [refTetIntegral_scale]
    unfold tetIntegral
    ring
  rw [key]
  refine mul_nonneg (abs_nonneg _) (refTetIntegral_nonneg _ fun x y z _ _ _ _ => ?_)
  have hval : Poly3.eval ((List.finRange k).flatMap fun s => (List.finRange k).flatMap fun t =>
        (Poly3.mul (Poly3.pow (T.coord 0) ((e s).1 + (e t).1))
          (Poly3.mul (Poly3.pow (T.coord 1) ((e s).2.1 + (e t).2.1))
            (Poly3.pow (T.coord 2) ((e s).2.2 + (e t).2.2)))).map
          fun u => (c s * c t * u.1, u.2)) x y z
      = (∑ s, (c s : ℝ) * (Poly3.eval (T.coord 0) x y z ^ (e s).1
          * Poly3.eval (T.coord 1) x y z ^ (e s).2.1
          * Poly3.eval (T.coord 2) x y z ^ (e s).2.2)) ^ 2 := by
    rw [sq, Finset.sum_mul_sum, eval_flatMap, Fin.sum_univ_def]
    refine congrArg List.sum (List.map_congr_left fun s _ => ?_)
    rw [eval_flatMap, Fin.sum_univ_def]
    refine congrArg List.sum (List.map_congr_left fun t _ => ?_)
    rw [eval_scale, eval_mul, eval_mul, eval_pow, eval_pow, eval_pow, pow_add, pow_add, pow_add]
    push_cast
    ring
  rw [hval]
  exact sq_nonneg _

/-- The integrals of the monomials over a cell, in any frame, integrate the
square of every polynomial to a non-negative value. -/
theorem cellIntegral_square_nonneg (cellTets : List Tet) (Jinv : scalarSquareMatrix)
    (x0 : point) (k : ℕ) (c : Fin k → ℚ) (e : Fin k → ℕ × ℕ × ℕ) :
    0 ≤ ∑ s, ∑ t, c s * c t * cellIntegral cellTets Jinv x0 ((e s).1 + (e t).1)
      ((e s).2.1 + (e t).2.1) ((e s).2.2 + (e t).2.2) := by
  induction cellTets with
  | nil => simp [cellIntegral]
  | cons T cellTets ih =>
    have hsplit : ∀ n m l, cellIntegral (T :: cellTets) Jinv x0 n m l
        = tetIntegral (T.transform Jinv x0) n m l + cellIntegral cellTets Jinv x0 n m l := by
      intro n m l
      simp [cellIntegral]
    simp only [hsplit, mul_add, Finset.sum_add_distrib]
    exact add_nonneg (tetIntegral_square_nonneg _ k c e) ih

/-! ## The smoothness indicator matrix -/

/-- The basis monomials of order `r` have total degree at most `r`. -/
theorem degree_le_of_mem_basisExponents (r : ℕ) (e : ℕ × ℕ × ℕ) (h : e ∈ basisExponents r) :
    e.1 + e.2.1 + e.2.2 ≤ r := by
  simp only [basisExponents, List.mem_flatMap, List.mem_map, List.mem_range] at h
  obtain ⟨d, hd, i, hi, j, hj, rfl⟩ := h
  simp only
  omega

/-- The basis monomials in the directions of `dim` have total degree at most
the order. -/
theorem degree_le_of_mem_activeExponents (dim : ℕ × ℕ × ℕ) (r : ℕ) (e : ℕ × ℕ × ℕ)
    (h : e ∈ activeExponents dim r) : e.1 + e.2.1 + e.2.2 ≤ r :=
  degree_le_of_mem_basisExponents r e (List.mem_filter.mp h).1

/-- Where both derivative coefficients are non-zero, the index `e1 + e2 - 2a`
is the sum of the exponents of the two differentiated monomials. -/
theorem derivCoeff_mul_index (I : volIntegralType) (e1 e2 a : ℕ × ℕ × ℕ) :
    derivCoeff e1 a * derivCoeff e2 a
        * I (e1.1 + e2.1 - 2 * a.1) (e1.2.1 + e2.2.1 - 2 * a.2.1) (e1.2.2 + e2.2.2 - 2 * a.2.2)
      = derivCoeff e1 a * derivCoeff e2 a
        * I ((e1.1 - a.1) + (e2.1 - a.1)) ((e1.2.1 - a.2.1) + (e2.2.1 - a.2.1))
            ((e1.2.2 - a.2.2) + (e2.2.2 - a.2.2)) := by
  unfold derivCoeff
  split_ifs with h1 h2 h2
  · have i1 : e1.1 + e2.1 - 2 * a.1 = (e1.1 - a.1) + (e2.1 - a.1) := by omega
    have i2 : e1.2.1 + e2.2.1 - 2 * a.2.1 = (e1.2.1 - a.2.1) + (e2.2.1 - a.2.1) := by omega
    have i3 : e1.2.2 + e2.2.2 - 2 * a.2.2 = (e1.2.2 - a.2.2) + (e2.2.2 - a.2.2) := by omega
    rw [i1, i2, i3]
  all_goals simp

/-- The entries of the smoothness indicator matrix are symmetric in the two
basis functions. -/
theorem smoothEntry_symm (r : ℕ) (scale : ℕ × ℕ × ℕ → ℚ) (I : volIntegralType)
    (e1 e2 : ℕ × ℕ × ℕ) : smoothEntry r scale I e1 e2 = smoothEntry r scale I e2 e1 := by
  unfold smoothEntry
  refine Finset.sum_congr rfl fun a _ => ?_
  rw [mul_comm (derivCoeff e1 _) (derivCoeff e2 _), Nat.add_comm e1.1 e2.1,
    Nat.add_comm e1.2.1 e2.2.1, Nat.add_comm e1.2.2 e2.2.2]

/-- The smoothness value as a double sum. -/
theorem smoothnessValue_eq {k : ℕ} (B : Matrix (Fin k) (Fin k) ℚ) (c : Fin k → ℚ) :
    smoothnessValue B c = ∑ i, ∑ j, c i * c j * B i j := by
  unfold smoothnessValue
  simp only [Matrix.dotProduct, Matrix.mulVec, Finset.mul_sum]
  refine Finset.sum_congr rfl fun i _ => Finset.sum_congr rfl fun j _ => ?_
  ring

/-- The quadratic form of the smoothness entries is a non-negative combination
of integrals of squares of polynomials of degree at most `r`, when the table
integrates such squares to non-negative values. -/
theorem quadForm_smoothEntry_nonneg (r : ℕ) (scale : ℕ × ℕ × ℕ → ℚ) (I : volIntegralType)
    (hscale : ∀ a, 0 ≤ scale a)
    (hI : ∀ (k : ℕ) (c : Fin k → ℚ) (e : Fin k → ℕ × ℕ × ℕ),
      (∀ s, (e s).1 + (e s).2.1 + (e s).2.2 ≤ r) →
      0 ≤ ∑ s, ∑ t, c s * c t
        * I ((e s).1 + (e t).1) ((e s).2.1 + (e t).2.1) ((e s).2.2 + (e t).2.2))
    (k : ℕ) (e : Fin k → ℕ × ℕ × ℕ) (c : Fin k → ℚ)
    (he : ∀ i, (e i).1 + (e i).2.1 + (e i).2.2 ≤ r) :
    0 ≤ ∑ i, ∑ j, c i * c j * smoothEntry r scale I (e i) (e j) := by
  have key : ∑ i, ∑ j, c i * c j * smoothEntry r scale I (e i) (e j)
      = ∑ a ∈ derivativeOrders r, scale a * ∑ i, ∑ j,
          (c i * derivCoeff (e i) a) * (c j * derivCoeff (e j) a)
            * I (((e i).1 - a.1) + ((e j).1 - a.1)) (((e i).2.1 - a.2.1) + ((e j).2.1 - a.2.1))
                (((e i).2.2 - a.2.2) + ((e j).2.2 - a.2.2)) := by
    unfold smoothEntry
    simp only [Finset.mul_sum]
    have step1 : ∀ i : Fin k, ∑ j : Fin k, ∑ a ∈ derivativeOrders r,
          c i * c j * (scale a * (derivCoeff (e i) a * derivCoeff (e j) a
            * I ((e i).1 + (e j).1 - 2 * a.1) ((e i).2.1 + (e j).2.1 - 2 * a.2.1)
                ((e i).2.2 + (e j).2.2 - 2 * a.2.2)))
        = ∑ a ∈ derivativeOrders r, ∑ j : Fin k,
          c i * c j * (scale a * (derivCoeff (e i) a * derivCoeff (e j) a
            * I ((e i).1 + (e j).1 - 2 * a.1) ((e i).2.1 + (e j).2.1 - 2 * a.2.1)
                ((e i).2.2 + (e j).2.2 - 2 * a.2.2))) := fun i => Finset.sum_comm
    rw [Finset.sum_congr rfl fun i _ => step1 i, Finset.sum_comm]
    refine Finset.sum_congr rfl fun a _ => ?_
    refine Finset.sum_congr rfl fun i _ => ?_
    refine Finset.sum_congr rfl fun j _ => ?_
    have hidx := derivCoeff_mul_index I (e i) (e j) a
    calc c i * c j * (scale a * (derivCoeff (e i) a * derivCoeff (e j) a
            * I ((e i).1 + (e j).1 - 2 * a.1) ((e i).2.1 + (e j).2.1 - 2 * a.2.1)
                ((e i).2.2 + (e j).2.2 - 2 * a.2.2)))
        = c i * c j * (scale a * (derivCoeff (e i) a * derivCoeff (e j) a
            * I (((e i).1 - a.1) + ((e j).1 - a.1)) (((e i).2.1 - a.2.1) + ((e j).2.1 - a.2.1))
                (((e i).2.2 - a.2.2) + ((e j).2.2 - a.2.2)))) := by rw [hidx]
      _ = _ := by ring
  rw [key]
  refine Finset.sum_nonneg fun a _ => mul_nonneg (hscale a) ?_
  refine hI k (fun i => c i * derivCoeff (e i) a)
    (fun i => ((e i).1 - a.1, (e i).2.1 - a.2.1, (e i).2.2 - a.2.2)) fun s => ?_
  have hs := he s
  simp only
  omega

/-- The table that `smoothIndIntegrals` computes for a cell integrates the
square of every polynomial of degree at most the order to a non-negative
value. -/
theorem smoothIndIntegrals_square_nonneg (cellTets : List Tet) (polOrder : ℕ)
    (JacobianI : scalarSquareMatrix) (refPointI : point) (k : ℕ) (c : Fin k → ℚ)
    (e : Fin k → ℕ × ℕ × ℕ) (he : ∀ s, (e s).1 + (e s).2.1 + (e s).2.2 ≤ polOrder) :
    0 ≤ ∑ s, ∑ t, c s * c t * smoothIndIntegrals cellTets polOrder JacobianI refPointI
      ((e s).1 + (e t).1) ((e s).2.1 + (e t).2.1) ((e s).2.2 + (e t).2.2) := by
  have hentry : ∀ s t, smoothIndIntegrals cellTets polOrder JacobianI refPointI
        ((e s).1 + (e t).1) ((e s).2.1 + (e t).2.1) ((e s).2.2 + (e t).2.2)
      = cellIntegral cellTets JacobianI refPointI
        ((e s).1 + (e t).1) ((e s).2.1 + (e t).2.1) ((e s).2.2 + (e t).2.2) := by
    intro s t
    have hs := he s
    have ht := he t
    unfold smoothIndIntegrals computeVolumeIntegrals
    rw [if_pos (by omega)]
  simp only [hentry]
  exact cellIntegral_square_nonneg cellTets JacobianI refPointI k c e

/-- For order 1 and unit normalisation the smoothness indicator matrix of the
unit cube in its own frame is the identity. -/
theorem getB_unitCube_one :
    getB unitCubeTets 1 (fun _ => 1) unitFrameInverse ![0, 0, 0] (1, 1, 1)
      = (1 : Matrix (Fin 3) (Fin 3) ℚ) := by
  decide!

/-- For order 2 and unit normalisation the diagonal entry of the basis
function `x^2` for the unit cube is the integral of `(2x)^2 + 2^2`. -/
theorem getB_unitCube_two_entry :
    (activeExponents (2, 2, 2) 2).get ⟨3, by decide⟩ = (2, 0, 0) ∧
      getB unitCubeTets 2 (fun _ => 1) unitFrameInverse ![0, 0, 0] (2, 2, 2)
        ⟨3, by decide⟩ ⟨3, by decide⟩ = 16 / 3 := by
  constructor <;> decide!

/-- C7: for every cell, given by its decomposition into tetrahedra, every
polynomial order, every reference frame, every choice of active directions and
every non-negative cell-size normalisation, the smoothness indicator matrix
returned by `getB` is symmetric and positive semi-definite: the smoothness
value `c^T B c` is at least zero for every coefficient vector `c`. -/
theorem getB_symmetric_psd (cellTets : List Tet) (polOrder : ℕ) (scale : ℕ × ℕ × ℕ → ℚ)
    (JInvI : scalarSquareMatrix) (refPointI : point) (dim : ℕ × ℕ × ℕ)
    (hscale : ∀ a, 0 ≤ scale a) :
    (getB cellTets polOrder scale JInvI refPointI dim).IsSymm ∧
      (∀ i j, getB cellTets polOrder scale JInvI refPointI dim i j
        = getB cellTets polOrder scale JInvI refPointI dim j i) ∧
      (∀ c, 0 ≤ smoothnessValue (getB cellTets polOrder scale JInvI refPointI dim) c) ∧
      (getB cellTets polOrder scale JInvI refPointI dim).PosSemidef := by
  have hsymm : ∀ i j, getB cellTets polOrder scale JInvI refPointI dim i j
      = getB cellTets polOrder scale JInvI refPointI dim j i :=
    fun i j => smoothEntry_symm polOrder scale _ _ _
  have hpsd : ∀ c, 0 ≤ smoothnessValue (getB cellTets polOrder scale JInvI refPointI dim) c := by
    intro c
    rw [smoothnessValue_eq]
    exact quadForm_smoothEntry_nonneg polOrder scale _ hscale
      (fun k c e he => smoothIndIntegrals_square_nonneg cellTets polOrder JInvI refPointI k c e he)
      _ (fun i => (activeExponents dim polOrder).get i) c
      (fun i => degree_le_of_mem_activeExponents dim polOrder _ (List.get_mem _ _ _))
  refine ⟨?_, hsymm, hpsd, ?_, fun c => ?_⟩
  · ext i j
    exact hsymm j i
  · ext i j
    simpa using hsymm j i
  · simpa [smoothnessValue] using hpsd c

/-- C7, witness: the unit cube in its own frame, order 2 in three active
directions, unit normalisation. -/
theorem getB_symmetric_psd_witness :
    (∀ a : ℕ × ℕ × ℕ, (0 : ℚ) ≤ (fun _ => 1) a) ∧
      (getB unitCubeTets 2 (fun _ => 1) unitFrameInverse ![0, 0, 0] (2, 2, 2)).IsSymm ∧
      (∀ i j, getB unitCubeTets 2 (fun _ => 1) unitFrameInverse ![0, 0, 0] (2, 2, 2) i j
        = getB unitCubeTets 2 (fun _ => 1) unitFrameInverse ![0, 0, 0] (2, 2, 2) j i) ∧
      (∀ c, 0 ≤ smoothnessValue
        (getB unitCubeTets 2 (fun _ => 1) unitFrameInverse ![0, 0, 0] (2, 2, 2)) c) ∧
      (getB unitCubeTets 2 (fun _ => 1) unitFrameInverse ![0, 0, 0] (2, 2, 2)).PosSemidef :=
  ⟨fun _ => zero_le_one,
   getB_symmetric_psd unitCubeTets 2 (fun _ => 1) unitFrameInverse ![0, 0, 0] (2, 2, 2)
     (fun _ => zero_le_one)⟩

/-! ## WENOUpwindFit: face values, weights and setup -/

/-- A scalar below 1 truncates to a label below 1. -/
theorem labelOfScalar_lt_one (s : ℚ) (h : s < 1) : labelOfScalar s < 1 := by
  unfold labelOfScalar
  split_ifs with h0
  · exact Int.floor_lt.mpr (by simpa using h)
  · have : ⌈s⌉ ≤ 0 := Int.ceil_le.mpr (by simpa using le_of_lt (not_le.mp h0))
    omega

/-- A label stored as a scalar converts back to itself. -/
theorem labelOfScalar_intCast (n : ℤ) : labelOfScalar (n : ℚ) = n := by
  unfold labelOfScalar
  split_ifs <;> simp

/-- The constructor of `WENOCoeff` refuses an order below 1. -/
theorem construct_below_one (polOrder : ℤ) (h : polOrder < 1) :
    WENOCoeff.construct polOrder = .error .invalidConfiguration := by
  unfold WENOCoeff.construct
  rw [if_pos h]

/-- C13: for every field `vf` and every face, the weight returned by `weights`
is 1 when the face flux is at least 0 and 0 when it is negative, and it does
not depend on `vf`. -/
theorem weights_by_flux_sign (s : WENOUpwindFit) (vf : volScalarField) (faceI : ℕ) :
    (0 ≤ s.faceFlux_ faceI → s.weights vf faceI = 1) ∧
      (s.faceFlux_ faceI < 0 → s.weights vf faceI = 0) ∧
      ∀ vf2 : volScalarField, s.weights vf2 = s.weights vf := by
  refine ⟨fun h => ?_, fun h => ?_, fun vf2 => rfl⟩
  · simp [WENOUpwindFit.weights, pos, h]
  · simp [WENOUpwindFit.weights, pos, not_le.mpr h]

/-- C15: constructing a scheme with a polynomial order below 1 fails at setup
with the invalid-configuration error, for the constructor from a mesh and an
order, for the constructors that read the order from a stream, and for
`WENOSensor`; no scheme is returned, so no reconstruction is done with it. -/
theorem construct_order_below_one (polOrder : ℤ) (faceFlux : surfaceScalarField)
    (s limFac : ℚ) (h : polOrder < 1) (hs : s < 1) :
    WENOUpwindFit.fromMesh polOrder = .error .invalidConfiguration ∧
      WENOUpwindFit.fromIstream faceFlux s limFac = .error .invalidConfiguration ∧
      WENOSensor.construct polOrder = .error .invalidConfiguration ∧
      (∀ scheme, WENOUpwindFit.fromMesh polOrder ≠ .ok scheme) ∧
      ∀ scheme, WENOUpwindFit.fromIstream faceFlux s limFac ≠ .ok scheme := by
  have h1 : WENOUpwindFit.fromMesh polOrder = .error .invalidConfiguration := by
    unfold WENOUpwindFit.fromMesh
    rw [labelOfScalar_intCast, construct_below_one polOrder h]
    rfl
  have h2 : WENOUpwindFit.fromIstream faceFlux s limFac = .error .invalidConfiguration := by
    unfold WENOUpwindFit.fromIstream
    rw [construct_below_one _ (labelOfScalar_lt_one s hs)]
    rfl
  refine ⟨h1, h2, construct_below_one polOrder h, fun scheme hc => ?_, fun scheme hc => ?_⟩
  · rw [h1] at hc; cases hc
  · rw [h2] at hc; cases hc

/-- C15, witness: order 0 from the mesh and order 1/2 from the stream. -/
theorem construct_order_below_one_witness :
    (0 : ℤ) < 1 ∧ (1 / 2 : ℚ) < 1 ∧
      WENOUpwindFit.fromMesh 0 = .error .invalidConfiguration ∧
      WENOUpwindFit.fromIstream zeroFlux (1 / 2) 0 = .error .invalidConfiguration ∧
      WENOSensor.construct 0 = .error .invalidConfiguration ∧
      (∀ scheme, WENOUpwindFit.fromMesh 0 ≠ .ok scheme) ∧
      ∀ scheme, WENOUpwindFit.fromIstream zeroFlux (1 / 2) 0 ≠ .ok scheme :=
  ⟨by decide, by norm_num,
   construct_order_below_one 0 zeroFlux (1 / 2) 0 (by decide) (by norm_num)⟩

/-! ## The binary face list -/

/-- Checked access at a natural index. -/
theorem listAt_natCast {α : Type} (xs : List α) (i : ℕ) : listAt xs (i : ℤ) = xs[i]? := by
  simp [listAt]

/-- The inner loop copies `size` elements starting at `index` when they are in
bounds. -/
theorem fillFace_eq (elems : List ℤ) (size : ℕ) (index : ℤ) (h0 : 0 ≤ index)
    (hb : index.toNat + size ≤ elems.length) :
    fillFace elems size index = some ((elems.drop index.toNat).take size) := by
  induction size generalizing index with
  | zero => simp [fillFace]
  | succ n ih =>
    have hlt : index.toNat < elems.length := by omega
    have hnext : (index + 1).toNat = index.toNat + 1 := by omega
    have hrec := ih (index + 1) (by omega) (by omega)
    have hat : listAt elems index = some elems[index.toNat] := by
      simp [listAt, h0, hlt]
    rw [fillFace, hat, hrec, hnext]
    simp only
    rw [List.drop_eq_getElem_cons hlt, List.take_succ_cons]

/-- Adjacent slices concatenate to one slice. -/
theorem slice_append (elems : List ℤ) (a b c : ℤ) (ha : 0 ≤ a) (hab : a ≤ b)
    (hbc : b ≤ c) : slice elems a b ++ slice elems b c = slice elems a c := by
  unfold slice
  have h1 : (c - a).toNat = (b - a).toNat + (c - b).toNat := by omega
  have h2 : b.toNat = a.toNat + (b - a).toNat := by omega
  rw [h1, List.take_add, List.drop_drop, ← h2]

/-- The length of a slice that is in bounds. -/
theorem slice_length (elems : List ℤ) (a b : ℤ) (ha : 0 ≤ a) (hab : a ≤ b)
    (hb : b ≤ elems.length) : ((slice elems a b).length : ℤ) = b - a := by
  unfold slice
  rw [List.length_take, List.length_drop]
  omega

/-- One pass of the outer loop returns the slice between two consecutive
offsets. -/
theorem readFace_eq (start elems : List ℤ) (i : ℕ) (hi : i + 1 < start.length)
    (h0 : 0 ≤ start.getD i 0) (hmono : start.getD i 0 ≤ start.getD (i + 1) 0)
    (hb : start.getD (i + 1) 0 ≤ elems.length) :
    readFace start elems i = some (slice elems (start.getD i 0) (start.getD (i + 1) 0)) := by
  have h1 : listAt start (i : ℤ) = some (start.getD i 0) := by
    rw [listAt_natCast, List.getD_eq_getElem?_getD, List.getElem?_eq_getElem (by omega)]
    rfl
  have h2 : listAt start ((i : ℤ) + 1) = some (start.getD (i + 1) 0) := by
    have := listAt_natCast start (i + 1)
    rw [Nat.cast_add, Nat.cast_one] at this
    rw [this, List.getD_eq_getElem?_getD, List.getElem?_eq_getElem hi]
    rfl
  unfold readFace
  rw [h1, h2]
  simp only
  have hnot : ¬ (start.getD (i + 1) 0 - start.getD i 0 < 0) := by omega
  rw [if_neg hnot, fillFace_eq elems (start.getD (i + 1) 0 - start.getD i 0).toNat
    (start.getD i 0) h0 (by omega)]
  rfl

/-- The outer loop returns the slices between consecutive offsets. -/
theorem readFaces_eq (start elems : List ℤ) (n i : ℕ) (hi : i + n < start.length)
    (h0 : ∀ j, i ≤ j → j < i + n → 0 ≤ start.getD j 0)
    (hmono : ∀ j, i ≤ j → j < i + n → start.getD j 0 ≤ start.getD (j + 1) 0)
    (hb : ∀ j, i ≤ j → j < i + n → start.getD (j + 1) 0 ≤ elems.length) :
    readFaces start elems n i
      = some ((List.range n).map fun j =>
          slice elems (start.getD (i + j) 0) (start.getD (i + j + 1) 0)) := by
  induction n generalizing i with
  | zero => simp [readFaces]
  | succ n ih =>
    have hf := readFace_eq start elems i (by omega) (h0 i le_rfl (by omega))
      (hmono i le_rfl (by omega)) (hb i le_rfl (by omega))
    have hr := ih (i + 1) (by omega) (fun j h1 h2 => h0 j (by omega) (by omega))
      (fun j h1 h2 => hmono j (by omega) (by omega)) (fun j h1 h2 => hb j (by omega) (by omega))
    rw [readFaces, hf, hr]
    simp only
    rw [List.range_succ_eq_map, List.map_cons, List.map_map]
    simp only [add_zero, Option.some.injEq, List.cons.injEq, true_and]
    apply List.map_congr_left
    intro j _
    simp only [Function.comp_apply]
    rw [show i + 1 + j = i + (j + 1) by omega]

/-- The concatenation of the slices between consecutive offsets is the slice
between the first and the last offset. -/
theorem join_slices (elems : List ℤ) (s : ℕ → ℤ) (n : ℕ) (h0 : 0 ≤ s 0)
    (hmono : ∀ j, j < n → s j ≤ s (j + 1)) :
    ((List.range n).map fun j => slice elems (s j) (s (j + 1))).flatten
      = slice elems (s 0) (s n) := by
  induction n with
  | zero => simp [slice]
  | succ n ih =>
    have hle : s 0 ≤ s n := by
      clear ih
      induction n with
      | zero => exact le_rfl
      | succ m ihm =>
        exact le_trans (ihm (fun j hj => hmono j (by omega))) (hmono m (by omega))
    rw [List.range_succ, List.map_append, List.flatten_append, ih (fun j hj => hmono j (by omega))]
    simp only [List.map_cons, List.map_nil, List.flatten_cons, List.flatten_nil, List.append_nil]
    exact slice_append elems (s 0) (s n) (s (n + 1)) h0 hle (hmono n (by omega))

/-- A non-decreasing offset list that starts at a non-negative offset has only
non-negative offsets. -/
theorem getD_nonneg_of_mono (start : List ℤ) (k : ℕ) (h0 : 0 ≤ start.getD 0 0)
    (hmono : ∀ i, i < k → start.getD i 0 ≤ start.getD (i + 1) 0) :
    ∀ j, j ≤ k → 0 ≤ start.getD j 0 := by
  intro j
  induction j with
  | zero => exact fun _ => h0
  | succ m ih => exact fun hm => le_trans (ih (by omega)) (hmono m (by omega))

/-- In a non-decreasing offset list every offset is at most the last one. -/
theorem getD_le_last_of_mono (start : List ℤ) (k : ℕ)
    (hmono : ∀ i, i < k → start.getD i 0 ≤ start.getD (i + 1) 0) :
    ∀ d j, j + d = k → start.getD j 0 ≤ start.getD k 0 := by
  intro d
  induction d with
  | zero => intro j hj; rw [show j = k by omega]
  | succ m ih =>
    intro j hj
    exact le_trans (hmono j (by omega)) (ih (j + 1) (by omega))

/-- Under the precondition the binary branch returns the list of the slices. -/
theorem readFaceListBinary_eq (start elems : List ℤ) (k : ℕ)
    (hlen : start.length = k + 1)
    (h0 : 0 ≤ start.getD 0 0)
    (hmono : ∀ i, i < k → start.getD i 0 ≤ start.getD (i + 1) 0)
    (hlast : start.getD k 0 ≤ elems.length) :
    readFaceListBinary start elems
      = some ((List.range k).map fun j =>
          slice elems (start.getD j 0) (start.getD (j + 1) 0)) := by
  have hnn := getD_nonneg_of_mono start k h0 hmono
  have hle := getD_le_last_of_mono start k hmono
  unfold readFaceListBinary
  rw [if_neg (by omega), hlen, Nat.add_sub_cancel]
  rw [readFaces_eq start elems k 0 (by omega) (fun j _ hj => hnn j (by omega))
    (fun j _ hj => hmono j (by omega))
    (fun j _ hj => le_trans (hle (k - (j + 1)) (j + 1) (by omega)) hlast)]
  simp

/-- C16: for every offset list `start` of length `k + 1` that is non-decreasing
with `0 ≤ start[0]` and `start[k] ≤ |elems|`, the binary branch of
`readFaceList` returns, with every index in bounds, exactly `k` faces, face `i`
is the slice `elems[start[i] .. start[i+1]-1]` of length `start[i+1] -
start[i]`, and the concatenation of the faces is `elems[start[0] ..
start[k]-1]`. -/
theorem readFaceList_binary (start elems : List ℤ) (k : ℕ)
    (hlen : start.length = k + 1)
    (h0 : 0 ≤ start.getD 0 0)
    (hmono : ∀ i, i < k → start.getD i 0 ≤ start.getD (i + 1) 0)
    (hlast : start.getD k 0 ≤ elems.length) :
    ∃ L, readFaceListBinary start elems = some L ∧ L.length = k ∧
      (∀ i, i < k →
        L[i]? = some (slice elems (start.getD i 0) (start.getD (i + 1) 0)) ∧
        (((slice elems (start.getD i 0) (start.getD (i + 1) 0)).length : ℤ)
          = start.getD (i + 1) 0 - start.getD i 0)) ∧
      L.flatten = slice elems (start.getD 0 0) (start.getD k 0) := by
  have hnn := getD_nonneg_of_mono start k h0 hmono
  have hle := getD_le_last_of_mono start k hmono
  refine ⟨_, readFaceListBinary_eq start elems k hlen h0 hmono hlast, by simp, ?_, ?_⟩
  · intro i hi
    refine ⟨by simp [List.getElem?_map, List.getElem?_range, hi], ?_⟩
    exact slice_length elems _ _ (hnn i (by omega)) (hmono i hi)
      (le_trans (hle (k - (i + 1)) (i + 1) (by omega)) hlast)
  · exact join_slices elems (fun j => start.getD j 0) k h0 hmono

/-- C16, witness: three faces, the second one empty, from the offsets 0, 3, 3,
7. -/
theorem readFaceList_binary_witness :
    ∃ L, readFaceListBinary [0, 3, 3, 7] [10, 11, 12, 13, 14, 15, 16, 17] = some L ∧
      L.length = 3 ∧
      (∀ i, i < 3 →
        L[i]? = some (slice [10, 11, 12, 13, 14, 15, 16, 17]
          (([0, 3, 3, 7] : List ℤ).getD i 0) (([0, 3, 3, 7] : List ℤ).getD (i + 1) 0)) ∧
        (((slice [10, 11, 12, 13, 14, 15, 16, 17]
            (([0, 3, 3, 7] : List ℤ).getD i 0) (([0, 3, 3, 7] : List ℤ).getD (i + 1) 0)).length
              : ℤ)
          = ([0, 3, 3, 7] : List ℤ).getD (i + 1) 0 - ([0, 3, 3, 7] : List ℤ).getD i 0)) ∧
      L.flatten = slice [10, 11, 12, 13, 14, 15, 16, 17]
        (([0, 3, 3, 7] : List ℤ).getD 0 0) (([0, 3, 3, 7] : List ℤ).getD 3 0) :=
  readFaceList_binary [0, 3, 3, 7] [10, 11, 12, 13, 14, 15, 16, 17] 3 rfl (by decide)
    (by decide) (by decide)

/-! ## The bounding box of the processors -/

/-- A running minimum is at most its initial value. -/
theorem foldl_min_le_init (xs : List ℚ) (m : ℚ) : xs.foldl Min.min m ≤ m := by
  induction xs generalizing m with
  | nil => exact le_rfl
  | cons x xs ih => exact le_trans (ih _) (min_le_left _ _)

/-- A running minimum is at most every element. -/
theorem foldl_min_le_mem (xs : List ℚ) (m : ℚ) : ∀ x ∈ xs, xs.foldl Min.min m ≤ x := by
  induction xs generalizing m with
  | nil => intro x hx; cases hx
  | cons y ys ih =>
    intro x hx
    rcases List.mem_cons.mp hx with h | h
    · subst h
      exact le_trans (foldl_min_le_init ys _) (min_le_right _ _)
    · exact ih _ x h

/-- A running minimum is the initial value or one of the elements. -/
theorem foldl_min_attained (xs : List ℚ) (m : ℚ) :
    xs.foldl Min.min m = m ∨ ∃ x ∈ xs, xs.foldl Min.min m = x := by
  induction xs generalizing m with
  | nil => exact Or.inl rfl
  | cons y ys ih =>
    rcases ih (Min.min m y) with h | ⟨x, hx, h⟩
    · rcases min_choice m y with h2 | h2
      · left; rw [List.foldl_cons, h, h2]
      · right; exact ⟨y, List.mem_cons_self _ _, by rw [List.foldl_cons, h, h2]⟩
    · right; exact ⟨x, List.mem_cons_of_mem _ hx, h⟩

/-- A running maximum is at least its initial value. -/
theorem foldl_max_init_le (xs : List ℚ) (m : ℚ) : m ≤ xs.foldl Max.max m := by
  induction xs generalizing m with
  | nil => exact le_rfl
  | cons x xs ih => exact le_trans (le_max_left _ _) (ih _)

/-- A running maximum is at least every element. -/
theorem foldl_max_mem_le (xs : List ℚ) (m : ℚ) : ∀ x ∈ xs, x ≤ xs.foldl Max.max m := by
  induction xs generalizing m with
  | nil => intro x hx; cases hx
  | cons y ys ih =>
    intro x hx
    rcases List.mem_cons.mp hx with h | h
    · subst h
      exact le_trans (le_max_right _ _) (foldl_max_init_le ys _)
    · exact ih _ x h

/-- A running maximum is the initial value or one of the elements. -/
theorem foldl_max_attained (xs : List ℚ) (m : ℚ) :
    xs.foldl Max.max m = m ∨ ∃ x ∈ xs, xs.foldl Max.max m = x := by
  induction xs generalizing m with
  | nil => exact Or.inl rfl
  | cons y ys ih =>
    rcases ih (Max.max m y) with h | ⟨x, hx, h⟩
    · rcases max_choice m y with h2 | h2
      · left; rw [List.foldl_cons, h, h2]
      · right; exact ⟨y, List.mem_cons_self _ _, by rw [List.foldl_cons, h, h2]⟩
    · right; exact ⟨x, List.mem_cons_of_mem _ hx, h⟩

/-- The minimum corner of a box grown point by point, component by component.
-/
theorem foldl_box_min (step : boundBox → point → boundBox)
    (hstep : ∀ bb p, (step bb p).min = pointMin bb.min p)
    (points : List point) (bb : boundBox) (i : Fin 3) :
    (points.foldl step bb).min i = (points.map fun p => p i).foldl Min.min (bb.min i) := by
  induction points generalizing bb with
  | nil => rfl
  | cons p ps ih =>
    rw [List.foldl_cons, ih, hstep]
    rfl

/-- The maximum corner of a box grown point by point, component by component.
-/
theorem foldl_box_max (step : boundBox → point → boundBox)
    (hstep : ∀ bb p, (step bb p).max = pointMax bb.max p)
    (points : List point) (bb : boundBox) (i : Fin 3) :
    (points.foldl step bb).max i = (points.map fun p => p i).foldl Max.max (bb.max i) := by
  induction points generalizing bb with
  | nil => rfl
  | cons p ps ih =>
    rw [List.foldl_cons, ih, hstep]
    rfl

/-- The minimum corner of the box of a point list. -/
theorem boundBoxOfPoints_min (inv : boundBox) (points : List point) (i : Fin 3) :
    (boundBoxOfPoints inv points).min i
      = (points.map fun p => p i).foldl Min.min (inv.min i) :=
  foldl_box_min _ (fun _ _ => rfl) points inv i

/-- The maximum corner of the box of a point list. -/
theorem boundBoxOfPoints_max (inv : boundBox) (points : List point) (i : Fin 3) :
    (boundBoxOfPoints inv points).max i
      = (points.map fun p => p i).foldl Max.max (inv.max i) :=
  foldl_box_max _ (fun _ _ => rfl) points inv i

/-- The minimum corner after the loop over the processors, from any initial
box. -/
theorem foldl_procs_min (inv : boundBox) (rd : ℤ → List point) (procs : List ℤ)
    (bb : boundBox) (i : Fin 3) :
    (procs.foldl
      (fun bb proci =>
        (⟨pointMin bb.min (boundBoxOfPoints inv (rd proci)).min,
          pointMax bb.max (boundBoxOfPoints inv (rd proci)).max⟩ : boundBox)) bb).min i
      = (procs.map fun q => (boundBoxOfPoints inv (rd q)).min i).foldl Min.min (bb.min i) := by
  induction procs generalizing bb with
  | nil => rfl
  | cons q qs ih =>
    rw [List.foldl_cons, ih]
    rfl

/-- The maximum corner after the loop over the processors, from any initial
box. -/
theorem foldl_procs_max (inv : boundBox) (rd : ℤ → List point) (procs : List ℤ)
    (bb : boundBox) (i : Fin 3) :
    (procs.foldl
      (fun bb proci =>
        (⟨pointMin bb.min (boundBoxOfPoints inv (rd proci)).min,
          pointMax bb.max (boundBoxOfPoints inv (rd proci)).max⟩ : boundBox)) bb).max i
      = (procs.map fun q => (boundBoxOfPoints inv (rd q)).max i).foldl Max.max (bb.max i) := by
  induction procs generalizing bb with
  | nil => rfl
  | cons q qs ih =>
    rw [List.foldl_cons, ih]
    rfl

/-- The minimum corner of `procBounds` as a running minimum over the
processors. -/
theorem procBounds_min (inv : boundBox) (rd : ℤ → List point) (procs : List ℤ) (i : Fin 3) :
    (procBounds inv rd procs).min i
      = (procs.map fun q => (boundBoxOfPoints inv (rd q)).min i).foldl Min.min (inv.min i) :=
  foldl_procs_min inv rd procs inv i

/-- The maximum corner of `procBounds` as a running maximum over the
processors. -/
theorem procBounds_max (inv : boundBox) (rd : ℤ → List point) (procs : List ℤ) (i : Fin 3) :
    (procBounds inv rd procs).max i
      = (procs.map fun q => (boundBoxOfPoints inv (rd q)).max i).foldl Max.max (inv.max i) :=
  foldl_procs_max inv rd procs inv i

/-- The minimum corner of `procBounds` is below the inverted box and below
every point. -/
theorem procBounds_min_le (inv : boundBox) (rd : ℤ → List point) (procs : List ℤ) (i : Fin 3) :
    (procBounds inv rd procs).min i ≤ inv.min i ∧
      ∀ q ∈ procs, ∀ p ∈ rd q, (procBounds inv rd procs).min i ≤ p i := by
  rw [procBounds_min]
  refine ⟨foldl_min_le_init _ _, fun q hq p hp => ?_⟩
  refine le_trans (foldl_min_le_mem _ _ _ (List.mem_map_of_mem _ hq)) ?_
  rw [boundBoxOfPoints_min]
  exact foldl_min_le_mem _ _ _ (List.mem_map_of_mem _ hp)

/-- The maximum corner of `procBounds` is above the inverted box and above
every point. -/
theorem procBounds_le_max (inv : boundBox) (rd : ℤ → List point) (procs : List ℤ) (i : Fin 3) :
    inv.max i ≤ (procBounds inv rd procs).max i ∧
      ∀ q ∈ procs, ∀ p ∈ rd q, p i ≤ (procBounds inv rd procs).max i := by
  rw [procBounds_max]
  refine ⟨foldl_max_init_le _ _, fun q hq p hp => ?_⟩
  refine le_trans ?_ (foldl_max_mem_le _ _ _ (List.mem_map_of_mem _ hq))
  rw [boundBoxOfPoints_max]
  exact foldl_max_mem_le _ _ _ (List.mem_map_of_mem _ hp)

/-- The minimum corner of `procBounds` is that of the inverted box or a
coordinate of a point. -/
theorem procBounds_min_attained (inv : boundBox) (rd : ℤ → List point) (procs : List ℤ)
    (i : Fin 3) :
    (procBounds inv rd procs).min i = inv.min i ∨
      ∃ q ∈ procs, ∃ p ∈ rd q, (procBounds inv rd procs).min i = p i := by
  rw [procBounds_min]
  rcases foldl_min_attained (procs.map fun q => (boundBoxOfPoints inv (rd q)).min i)
    (inv.min i) with h | ⟨x, hx, h⟩
  · exact Or.inl h
  · obtain ⟨q, hq, rfl⟩ := List.mem_map.mp hx
    rw [h, boundBoxOfPoints_min]
    rcases foldl_min_attained ((rd q).map fun p => p i) (inv.min i) with h2 | ⟨y, hy, h2⟩
    · exact Or.inl h2
    · obtain ⟨p, hp, rfl⟩ := List.mem_map.mp hy
      exact Or.inr ⟨q, hq, p, hp, h2⟩

/-- The maximum corner of `procBounds` is that of the inverted box or a
coordinate of a point. -/
theorem procBounds_max_attained (inv : boundBox) (rd : ℤ → List point) (procs : List ℤ)
    (i : Fin 3) :
    (procBounds inv rd procs).max i = inv.max i ∨
      ∃ q ∈ procs, ∃ p ∈ rd q, (procBounds inv rd procs).max i = p i := by
  rw [procBounds_max]
  rcases foldl_max_attained (procs.map fun q => (boundBoxOfPoints inv (rd q)).max i)
    (inv.max i) with h | ⟨x, hx, h⟩
  · exact Or.inl h
  · obtain ⟨q, hq, rfl⟩ := List.mem_map.mp hx
    rw [h, boundBoxOfPoints_max]
    rcases foldl_max_attained ((rd q).map fun p => p i) (inv.max i) with h2 | ⟨y, hy, h2⟩
    · exact Or.inl h2
    · obtain ⟨p, hp, rfl⟩ := List.mem_map.mp hy
      exact Or.inr ⟨q, hq, p, hp, h2⟩

/-- A running minimum depends only on which elements occur. -/
theorem foldl_min_congr_mem (xs ys : List ℚ) (m : ℚ) (h : ∀ x, x ∈ xs ↔ x ∈ ys) :
    xs.foldl Min.min m = ys.foldl Min.min m := by
  apply le_antisymm
  · rcases foldl_min_attained ys m with h1 | ⟨y, hy, h1⟩
    · rw [h1]; exact foldl_min_le_init xs m
    · rw [h1]; exact foldl_min_le_mem xs m y ((h y).mpr hy)
  · rcases foldl_min_attained xs m with h1 | ⟨x, hx, h1⟩
    · rw [h1]; exact foldl_min_le_init ys m
    · rw [h1]; exact foldl_min_le_mem ys m x ((h x).mp hx)

/-- A running maximum depends only on which elements occur. -/
theorem foldl_max_congr_mem (xs ys : List ℚ) (m : ℚ) (h : ∀ x, x ∈ xs ↔ x ∈ ys) :
    xs.foldl Max.max m = ys.foldl Max.max m := by
  apply le_antisymm
  · rcases foldl_max_attained xs m with h1 | ⟨x, hx, h1⟩
    · rw [h1]; exact foldl_max_init_le ys m
    · rw [h1]; exact foldl_max_mem_le ys m x ((h x).mp hx)
  · rcases foldl_max_attained ys m with h1 | ⟨y, hy, h1⟩
    · rw [h1]; exact foldl_max_init_le xs m
    · rw [h1]; exact foldl_max_mem_le xs m y ((h y).mpr hy)

/-- The box of `procBounds` does not depend on the order of the processor list.
-/
theorem procBounds_perm (inv : boundBox) (rd : ℤ → List point) (procs procs2 : List ℤ)
    (h : procs2.Perm procs) : procBounds inv rd procs2 = procBounds inv rd procs := by
  have hmem : ∀ (f : ℤ → ℚ) (x : ℚ), x ∈ procs2.map f ↔ x ∈ procs.map f := by
    intro f x
    simp only [List.mem_map]
    constructor
    · rintro ⟨q, hq, rfl⟩; exact ⟨q, h.mem_iff.mp hq, rfl⟩
    · rintro ⟨q, hq, rfl⟩; exact ⟨q, h.mem_iff.mpr hq, rfl⟩
  have hmin : (procBounds inv rd procs2).min = (procBounds inv rd procs).min := by
    funext i
    rw [procBounds_min, procBounds_min]
    exact foldl_min_congr_mem _ _ _ (hmem _)
  have hmax : (procBounds inv rd procs2).max = (procBounds inv rd procs).max := by
    funext i
    rw [procBounds_max, procBounds_max]
    exact foldl_max_congr_mem _ _ _ (hmem _)
  cases hb2 : procBounds inv rd procs2
  cases hb : procBounds inv rd procs
  rw [hb2, hb] at hmin hmax
  simp only at hmin hmax
  rw [hmin, hmax]

/-- C17: for every processor list whose points lie between the corners of the
inverted box, every point of every listed processor lies inside the box
returned by `procBounds`; when there is a point, the corners of the box are the
component-wise minimum and maximum over all points, so no smaller axis-aligned
box contains them all; the box does not depend on the order of the list, and
for an empty list it is the inverted box. -/
theorem procBounds_is_bounding_box (inv : boundBox) (rd : ℤ → List point) (procs : List ℤ)
    (hinv : ∀ q ∈ procs, ∀ p ∈ rd q, ∀ i, inv.max i ≤ p i ∧ p i ≤ inv.min i) :
    (∀ q ∈ procs, ∀ p ∈ rd q, ∀ i,
      (procBounds inv rd procs).min i ≤ p i ∧ p i ≤ (procBounds inv rd procs).max i) ∧
    ((∃ q ∈ procs, rd q ≠ []) → ∀ i,
      IsLeast {x | ∃ q ∈ procs, ∃ p ∈ rd q, x = p i} ((procBounds inv rd procs).min i) ∧
      IsGreatest {x | ∃ q ∈ procs, ∃ p ∈ rd q, x = p i} ((procBounds inv rd procs).max i)) ∧
    (∀ B : boundBox, (∃ q ∈ procs, rd q ≠ []) →
      (∀ q ∈ procs, ∀ p ∈ rd q, ∀ i, B.min i ≤ p i ∧ p i ≤ B.max i) →
      ∀ i, B.min i ≤ (procBounds inv rd procs).min i ∧
        (procBounds inv rd procs).max i ≤ B.max i) ∧
    (∀ procs2 : List ℤ, procs2.Perm procs →
      procBounds inv rd procs2 = procBounds inv rd procs) ∧
    procBounds inv rd [] = inv := by
  have hin : ∀ q ∈ procs, ∀ p ∈ rd q, ∀ i,
      (procBounds inv rd procs).min i ≤ p i ∧ p i ≤ (procBounds inv rd procs).max i :=
    fun q hq p hp i =>
      ⟨(procBounds_min_le inv rd procs i).2 q hq p hp,
       (procBounds_le_max inv rd procs i).2 q hq p hp⟩
  have hmin : (∃ q ∈ procs, rd q ≠ []) → ∀ i,
      ∃ q ∈ procs, ∃ p ∈ rd q, (procBounds inv rd procs).min i = p i := by
    rintro ⟨q0, hq0, hne⟩ i
    rcases procBounds_min_attained inv rd procs i with h | h
    · obtain ⟨p0, hp0⟩ := List.exists_mem_of_ne_nil _ hne
      refine ⟨q0, hq0, p0, hp0, le_antisymm ((hin q0 hq0 p0 hp0 i).1) ?_⟩
      rw [h]
      exact (hinv q0 hq0 p0 hp0 i).2
    · exact h
  have hmax : (∃ q ∈ procs, rd q ≠ []) → ∀ i,
      ∃ q ∈ procs, ∃ p ∈ rd q, (procBounds inv rd procs).max i = p i := by
    rintro ⟨q0, hq0, hne⟩ i
    rcases procBounds_max_attained inv rd procs i with h | h
    · obtain ⟨p0, hp0⟩ := List.exists_mem_of_ne_nil _ hne
      refine ⟨q0, hq0, p0, hp0, le_antisymm ?_ ((hin q0 hq0 p0 hp0 i).2)⟩
      rw [h]
      exact (hinv q0 hq0 p0 hp0 i).1
    · exact h
  refine ⟨hin, ?_, ?_, fun procs2 h => procBounds_perm inv rd procs procs2 h, rfl⟩
  · intro hne i
    refine ⟨⟨hmin hne i, ?_⟩, ⟨hmax hne i, ?_⟩⟩
    · rintro x ⟨q, hq, p, hp, rfl⟩
      exact (hin q hq p hp i).1
    · rintro x ⟨q, hq, p, hp, rfl⟩
      exact (hin q hq p hp i).2
  · intro B hne hB i
    obtain ⟨q, hq, p, hp, h⟩ := hmin hne i
    obtain ⟨q2, hq2, p2, hp2, h2⟩ := hmax hne i
    rw [h, h2]
    exact ⟨(hB q hq p hp i).1, (hB q2 hq2 p2 hp2 i).2⟩

/-- The points of the sample processors lie between the corners of the sample
inverted box. -/
theorem sampleInvertedBox_bounds :
    ∀ q ∈ ([0, 1] : List ℤ), ∀ p ∈ samplePoints q, ∀ i,
      sampleInvertedBox.max i ≤ p i ∧ p i ≤ sampleInvertedBox.min i := by
  intro q hq p hp i
  simp only [List.mem_cons, List.mem_singleton, List.not_mem_nil, or_false] at hq
  rcases hq with h | h <;> subst h <;>
    simp only [samplePoints, if_true, List.mem_cons, List.mem_singleton,
      List.not_mem_nil, or_false, one_ne_zero, if_false] at hp
  · rcases hp with h | h <;> subst h <;> fin_cases i <;>
      norm_num [sampleInvertedBox]
  · subst hp
    fin_cases i <;> norm_num [sampleInvertedBox]

/-- C17, witness: two processors with three points and the box inverted at
`±10^300`. -/
theorem procBounds_is_bounding_box_witness :
    (∀ q ∈ ([0, 1] : List ℤ), ∀ p ∈ samplePoints q, ∀ i,
      (procBounds sampleInvertedBox samplePoints [0, 1]).min i ≤ p i ∧
        p i ≤ (procBounds sampleInvertedBox samplePoints [0, 1]).max i) ∧
    ((∃ q ∈ ([0, 1] : List ℤ), samplePoints q ≠ []) → ∀ i,
      IsLeast {x | ∃ q ∈ ([0, 1] : List ℤ), ∃ p ∈ samplePoints q, x = p i}
        ((procBounds sampleInvertedBox samplePoints [0, 1]).min i) ∧
      IsGreatest {x | ∃ q ∈ ([0, 1] : List ℤ), ∃ p ∈ samplePoints q, x = p i}
        ((procBounds sampleInvertedBox samplePoints [0, 1]).max i)) ∧
    (∀ B : boundBox, (∃ q ∈ ([0, 1] : List ℤ), samplePoints q ≠ []) →
      (∀ q ∈ ([0, 1] : List ℤ), ∀ p ∈ samplePoints q, ∀ i, B.min i ≤ p i ∧ p i ≤ B.max i) →
      ∀ i, B.min i ≤ (procBounds sampleInvertedBox samplePoints [0, 1]).min i ∧
        (procBounds sampleInvertedBox samplePoints [0, 1]).max i ≤ B.max i) ∧
    (∀ procs2 : List ℤ, procs2.Perm [0, 1] →
      procBounds sampleInvertedBox samplePoints procs2
        = procBounds sampleInvertedBox samplePoints [0, 1]) ∧
    procBounds sampleInvertedBox samplePoints [] = sampleInvertedBox :=
  procBounds_is_bounding_box sampleInvertedBox samplePoints [0, 1] sampleInvertedBox_bounds

/-! ## The file header -/

/-- A successful `readHeader` implies a good stream on entry, the first token
`FoamFile`, a good stream after the dictionary, and the version and format of
the header in the stream. -/
theorem readHeader_ok (rt : Istream → token × Istream) (rd : Istream → dictionary × Istream)
    (is is2 : Istream) (h : readHeader rt rd is = .ok is2) :
    is.good = true ∧ (rt is).1.isWord = true ∧ (rt is).1.wordToken = "FoamFile" ∧
      (rd (rt is).2).2.good = true ∧ is2.good = true ∧
      (rd (rt is).2).1.lookup "version" = some is2.version ∧
      (rd (rt is).2).1.lookup "format" = some is2.format := by
  unfold readHeader at h
  by_cases h1 : is.good = true
  · rw [if_neg (by simp [h1])] at h
    by_cases h2 : ((rt is).2.good && (rt is).1.isWord
        && (rt is).1.wordToken == "FoamFile") = true
    · rw [if_pos h2] at h
      simp only [Bool.and_eq_true, beq_iff_eq] at h2
      split at h
      · rename_i v f c o hv hf hc ho
        by_cases h3 : (rd (rt is).2).2.good = true
        · rw [if_neg (by simp [h3])] at h
          cases h
          exact ⟨h1, h2.1.2, h2.2, h3, h3, hv, hf⟩
        · rw [if_pos (by simpa using h3)] at h
          cases h
      all_goals cases h
    · rw [if_neg h2] at h
      cases h
  · rw [if_pos (by simpa using h1)] at h
    cases h

/-- When one of the conditions fails, `readHeader` raises an error. -/
theorem readHeader_error (rt : Istream → token × Istream)
    (rd : Istream → dictionary × Istream) (is : Istream)
    (h : ¬ (is.good = true ∧ (rt is).1.isWord = true ∧ (rt is).1.wordToken = "FoamFile" ∧
      (rd (rt is).2).2.good = true)) :
    ∃ e, readHeader rt rd is = .error e := by
  cases hr : readHeader rt rd is with
  | error e => exact ⟨e, rfl⟩
  | ok is2 =>
    have := readHeader_ok rt rd is is2 hr
    exact absurd ⟨this.1, this.2.1, this.2.2.1, this.2.2.2.1⟩ h

/-- The function `readHeader` succeeds on the sample stream and sets version
2.0 and format binary. -/
theorem readHeader_sample :
    readHeader sampleReadToken sampleReadDict sampleStream
      = .ok ⟨true, "2.0", "binary", ["rest"]⟩ := by
  rfl

/-- C18: `readHeader` returns normally only if the stream is good on entry, the
first token read is the word `FoamFile` and the stream is still good after the
header dictionary has been read, and then the stream's version and format are
the ones of the header's `version` and `format` entries; in every other case it
raises a fatal IO error. -/
theorem readHeader_contract (rt : Istream → token × Istream)
    (rd : Istream → dictionary × Istream) (is : Istream) :
    (∀ is2, readHeader rt rd is = .ok is2 →
      is.good = true ∧ (rt is).1.isWord = true ∧ (rt is).1.wordToken = "FoamFile" ∧
        (rd (rt is).2).2.good = true ∧ is2.good = true ∧
        (rd (rt is).2).1.lookup "version" = some is2.version ∧
        (rd (rt is).2).1.lookup "format" = some is2.format) ∧
    (¬ (is.good = true ∧ (rt is).1.isWord = true ∧ (rt is).1.wordToken = "FoamFile" ∧
        (rd (rt is).2).2.good = true) →
      ∃ e, readHeader rt rd is = .error e) :=
  ⟨fun is2 h => readHeader_ok rt rd is is2 h, readHeader_error rt rd is⟩

/-! ## The constructor from a mesh and an order -/

/-- The constructor of `WENOCoeff` accepts an order of at least 1. -/
theorem construct_at_least_one (polOrder : ℤ) (h : 1 ≤ polOrder) :
    WENOCoeff.construct polOrder = .ok ⟨polOrder⟩ := by
  have hnot : ¬ polOrder < 1 := by omega
  unfold WENOCoeff.construct
  rw [if_neg hnot]

/-- While the `tmp` that `zeroFlux()` returns exists, a reference bound
through it reads the field that is 0 on every face, whatever the store was
before the call. -/
theorem zeroFlux_alive (store : FieldStore) :
    (WENOUpwindFit.zeroFlux store).2.deref (WENOUpwindFit.zeroFlux store).1.cref
      = some zeroFlux := by
  simp [WENOUpwindFit.zeroFlux, FieldStore.create, FieldStore.deref, tmp.cref, List.getD]

/-- Once the `tmp` that `zeroFlux()` returns is destroyed, a reference bound
through it reads nothing, whatever the store was before the call. -/
theorem zeroFlux_destroyed (store : FieldStore) :
    ((WENOUpwindFit.zeroFlux store).1.destroy (WENOUpwindFit.zeroFlux store).2).deref
      (WENOUpwindFit.zeroFlux store).1.cref = none := by
  simp [WENOUpwindFit.zeroFlux, FieldStore.create, FieldStore.deref, FieldStore.delete,
    tmp.cref, tmp.destroy, List.getD]

/-- With an order of at least 1 the constructor from a mesh and an order
returns an object. -/
theorem fromMesh_ok (polOrder : ℤ) (h : 1 ≤ polOrder) :
    WENOUpwindFit.fromMesh polOrder
      = .ok (⟨(WENOUpwindFit.zeroFlux []).1.cref, (polOrder : ℚ), 0, ⟨polOrder⟩⟩,
          (WENOUpwindFit.zeroFlux []).1.destroy (WENOUpwindFit.zeroFlux []).2) := by
  unfold WENOUpwindFit.fromMesh
  rw [labelOfScalar_intCast, construct_at_least_one polOrder h]
  rfl

/-- C21: the constructor from a mesh and a polynomial order gives the limiting
factor 0 and `corrected` is true, and the field that `zeroFlux()` creates is 0
on every face, so that `weights` would be 1 on every face while the temporary
exists.  The reference `faceFlux_` is bound through that temporary, which is
destroyed at the end of the member initialiser: in the object that the
constructor returns the reference reads nothing, and `weights` has no defined
result. -/
theorem fromMesh_faceFlux_dangling (polOrder : ℤ) (h : 1 ≤ polOrder) :
    ∃ object store, WENOUpwindFit.fromMesh polOrder = .ok (object, store) ∧
      object.limFac_ = 0 ∧ object.corrected = true ∧
      (∀ vf, object.weights (WENOUpwindFit.zeroFlux []).2 vf = some fun _ => 1) ∧
      store.deref object.faceFlux_ = none ∧ object.scheme store = none ∧
      ∀ vf, object.weights store vf = none := by
  refine ⟨_, _, fromMesh_ok polOrder h, rfl, rfl, fun vf => ?_, zeroFlux_destroyed [], ?_,
    fun vf => ?_⟩
  · simp only [WENOUpwindFitObject.weights, WENOUpwindFitObject.scheme, zeroFlux_alive,
      Option.map_some']
    congr 1
  · simp only [WENOUpwindFitObject.scheme, zeroFlux_destroyed, Option.map_none']
  · simp only [WENOUpwindFitObject.weights, WENOUpwindFitObject.scheme, zeroFlux_destroyed,
      Option.map_none']

/-- C21, at order 3: the constructor returns an object whose reference
`faceFlux_` reads nothing in the store that the constructor leaves. -/
theorem fromMesh_faceFlux_dangling_witness :
    (1 : ℤ) ≤ 3 ∧
      ∃ object store, WENOUpwindFit.fromMesh 3 = .ok (object, store) ∧
        object.limFac_ = 0 ∧ object.corrected = true ∧
        (∀ vf, object.weights (WENOUpwindFit.zeroFlux []).2 vf = some fun _ => 1) ∧
        store.deref object.faceFlux_ = none ∧ object.scheme store = none ∧
        ∀ vf, object.weights store vf = none :=
  ⟨by decide, fromMesh_faceFlux_dangling 3 (by decide)⟩

end WENOEXT
